import Mathlib

/-!
Verification development for the sinusoid-extraction core of the
star_shadow light-curve analysis code (`src/timeseries_functions.py`).

The Python source is shallowly embedded over `ℝ` with numpy arrays as
`List ℝ`.  Machine floats are modelled as real numbers; numpy's junk
conventions are modelled by Lean's own junk values (division by zero
yields 0, out-of-range list reads yield a default).  Python `while`
loops whose termination is not structural receive an explicit fuel
argument and return `Option` results (`none` = fuel exhausted); a
Python `raise` is modelled as `none` of an `Option`-valued function.

The module `analysis_functions` (`af`) of the repository is not among
the source files; the handful of helpers the core calls from it
(`find_harmonics_tolerance`, `find_harmonics_from_pattern`,
`f_within_rayleigh`) are modelled from the specification's description
of the Harmonic Pattern Matcher and of the close-frequency refinement,
and are marked `Modelled from the spec` below.
-/

namespace StarShadow

noncomputable section

open Real List Classical

/-! ## numpy primitives -/

/-- numpy `x % m` (`np.mod`): `x - m * floor (x / m)`; for `m > 0` the result
lies in `[0, m)`. -/
def np_mod (x m : ℝ) : ℝ := x - m * ⌊x / m⌋

/-- The phase-wrapping idiom of the source, `np.mod(x + np.pi, 2*np.pi) - np.pi`. -/
def wrapPhase (x : ℝ) : ℝ := np_mod (x + π) (2 * π) - π

/-- Round half to even (numpy `np.rint` / the rounding of `np.round`). -/
def roundHalfEven (x : ℝ) : ℤ :=
  if Int.fract x < 1 / 2 then ⌊x⌋
  else if 1 / 2 < Int.fract x then ⌊x⌋ + 1
  else if Even ⌊x⌋ then ⌊x⌋ else ⌊x⌋ + 1

/-- numpy `np.round(x, 2)`: round half to even at the second decimal. -/
def np_round_2 (x : ℝ) : ℝ := (roundHalfEven (x * 100) : ℝ) / 100

/-- Python `int(x)`: truncation toward zero. -/
def intTrunc (x : ℝ) : ℤ := if 0 ≤ x then ⌊x⌋ else -⌊-x⌋

/-- numpy `np.arctan2 y x` (C convention; `arctan2 0 0 = 0`). -/
def arctan2 (y x : ℝ) : ℝ :=
  if 0 < x then Real.arctan (y / x)
  else if x < 0 then
    (if 0 ≤ y then Real.arctan (y / x) + π else Real.arctan (y / x) - π)
  else
    (if 0 < y then π / 2 else if y < 0 then -π / 2 else 0)

/-- Largest element of a list (numpy `np.max`; junk 0 on the empty list). -/
def listMax (l : List ℝ) : ℝ := l.foldl max (l.headD 0)

/-- Smallest element of a list (numpy `np.min`; junk 0 on the empty list). -/
def listMin (l : List ℝ) : ℝ := l.foldl min (l.headD 0)

/-- numpy `np.ptp`: peak-to-peak, max minus min. -/
def np_ptp (l : List ℝ) : ℝ := listMax l - listMin l

/-- numpy `np.argmax`: the first index attaining the maximum (junk 0 on `[]`). -/
def np_argmax : List ℝ → ℕ
  | [] => 0
  | x :: xs =>
    let j := np_argmax xs
    if x < xs.getD j x then j + 1 else 0

/-- Elementwise subtraction of numpy arrays. -/
def listSub (a b : List ℝ) : List ℝ := List.zipWith (fun x y => x - y) a b

/-- Elementwise addition of numpy arrays. -/
def listAdd (a b : List ℝ) : List ℝ := List.zipWith (fun x y => x + y) a b

/-- Elementwise division of numpy arrays. -/
def listDiv (a b : List ℝ) : List ℝ := List.zipWith (fun x y => x / y) a b

/-- numpy `np.min(times[1:] - times[:-1])`: smallest consecutive difference. -/
def minDiff (l : List ℝ) : ℝ := listMin (listSub (l.drop 1) l)

/-- numpy slice `l[a:b]`. -/
def seg (l : List ℝ) (a b : ℕ) : List ℝ := (l.take b).drop a

/-- numpy `np.mean` (junk 0 on the empty list via division by zero). -/
def np_mean (l : List ℝ) : ℝ := l.sum / l.length

/-- numpy `np.delete(l, idx)` for an in-range position list: drop the listed
positions. -/
def deleteIdxs {α : Type} (l : List α) (idx : List ℕ) : List α :=
  (l.enum.filter (fun p => decide (p.1 ∉ idx))).map Prod.snd

/-- numpy `np.delete(l, idx)` with numpy's bounds check: `none` models the
`IndexError` raised when a position is out of range. -/
def npDeletePos {α : Type} (l : List α) (idx : List ℕ) : Option (List α) :=
  if ∀ p ∈ idx, p < l.length then some (deleteIdxs l idx) else none

/-! ## Model building blocks (`sum_sines`, `linear_curve`, `linear_pars`,
`calc_bic`), translated from `src/timeseries_functions.py`. -/

/-- `sum_sines`: the sinusoid part of the model, `Σ a · sin(2π f t + ph)`
evaluated at every time stamp. -/
def sum_sines (times f_n a_n ph_n : List ℝ) : List ℝ :=
  (f_n.zip (a_n.zip ph_n)).foldl
    (fun model fap =>
      List.zipWith (fun m t => m + fap.2.1 * Real.sin (2 * π * fap.1 * t + fap.2.2)) model times)
    (times.map (fun _ => 0))

/-- `linear_curve`: piecewise-linear curve over the sectors; the slices of the
output named by each sector are overwritten with `const + slope * t`. -/
def linear_curve (times const slope : List ℝ) (i_sectors : List (ℕ × ℕ)) : List ℝ :=
  ((const.zip slope).zip i_sectors).foldl
    (fun curve x =>
      curve.mapIdx (fun i v =>
        if x.2.1 ≤ i ∧ i < x.2.2 then x.1.1 + x.1.2 * times.getD i 0 else v))
    (times.map (fun _ => 0))

/-- `linear_pars`: per-sector ordinary least squares y-intercept and slope
from mean-centred sums. -/
def linear_pars (times signal : List ℝ) (i_sectors : List (ℕ × ℕ)) :
    List ℝ × List ℝ :=
  (i_sectors.map (fun s =>
    let ts := seg times s.1 s.2
    let ys := seg signal s.1 s.2
    let x_m := np_mean ts
    let y_m := np_mean ys
    let s_xx := (ts.map (fun t => (t - x_m) ^ 2)).sum
    let s_xy := (List.zipWith (fun t y => (t - x_m) * (y - y_m)) ts ys).sum
    let sl := s_xy / s_xx
    (y_m - sl * x_m, sl))).unzip

/-- `calc_bic`: Bayesian Information Criterion of a (noise-normalised)
residual array, with the source's loop accumulation of the squared sum. -/
def calc_bic (residuals : List ℝ) (n_param : ℕ) : ℝ :=
  let n : ℝ := residuals.length
  let sum_r_2 := residuals.foldl (fun acc r => acc + r ^ 2) 0
  n * Real.log (2 * π * sum_r_2 / n) + n + n_param * Real.log n

/-! ## Periodogram engine (`scargle` and the single-frequency routines). -/

/-- One pass of the Cuypers rotation of `scargle`: add the running
sine/cosine pair to every bin, rotating the pair by the `df` angle between
bins. -/
def scargleRot (sd cd : ℝ) : List (ℝ × ℝ) → ℝ → ℝ → List (ℝ × ℝ)
  | [], _, _ => []
  | p :: rest, s, c =>
    (p.1 + s, p.2 + c) :: scargleRot sd cd rest (s * cd + c * sd) (c * cd - s * sd)

/-- The contribution of one data point to the `scargle` accumulators
(`ss`/`sc` zipped, and `ss2`/`sc2` zipped). -/
def scarglePoint (f0 df t y : ℝ) (acc : List (ℝ × ℝ) × List (ℝ × ℝ)) :
    List (ℝ × ℝ) × List (ℝ × ℝ) :=
  let t_f0 := np_mod (t * (2 * π) * f0) (2 * π)
  let sf0 := Real.sin t_f0
  let cf0 := Real.cos t_f0
  let t_df := np_mod (t * (2 * π) * df) (2 * π)
  let sdf := Real.sin t_df
  let cdf := Real.cos t_df
  (scargleRot sdf cdf acc.1 (sf0 * y) (cf0 * y),
   scargleRot (2 * sdf * cdf) (cdf ^ 2 - sdf ^ 2) acc.2 (2 * sf0 * cf0) (cf0 ^ 2 - sf0 ^ 2))

/-- `scargle`: the Lomb-Scargle amplitude periodogram over the grid
`f0, f0+df, …` with the source's default clamps for `f0`, `df` and `fn`.
The NaN clamp of the zero-frequency bin is the identity in the real-number
model (no non-finite values exist) and is omitted. -/
def scargle (times signal : List ℝ) (f0 fn df : ℝ) : List ℝ × List ℝ :=
  let n : ℕ := signal.length
  let t_tot := np_ptp times
  let f0 := max f0 (0.01 / t_tot)
  let df := if df = 0 then 0.1 / t_tot else df
  let fn := if fn = 0 then 1 / (2 * minDiff times) else fn
  let nf : ℕ := (intTrunc ((fn - f0) / df + 0.001) + 1).toNat
  let init : List (ℝ × ℝ) := List.replicate nf (0, 0)
  let acc := (times.zip signal).foldl (fun a ty => scarglePoint f0 df ty.1 ty.2 a) (init, init)
  let f1 := (List.range nf).map (fun j : ℕ => f0 + (j : ℝ) * df)
  let s1 := (acc.1.zip acc.2).map (fun p =>
    (p.1.2 ^ 2 * (n - p.2.2) + p.1.1 ^ 2 * (n + p.2.2) - 2 * p.1.1 * p.1.2 * p.2.1) /
      ((n : ℝ) ^ 2 - p.2.2 ^ 2 - p.2.1 ^ 2))
  (f1, s1.map (fun v => Real.sqrt (4 / (n : ℝ)) * Real.sqrt v))

/-- The four accumulated sums of the single-frequency Scargle routines:
`(s_cos, cos_2, s_sin, sin_2)` at time shift `tau`. -/
def scargleSums (times signal : List ℝ) (f tau : ℝ) : ℝ × ℝ × ℝ × ℝ :=
  (times.zip signal).foldl
    (fun a p =>
      let cosv := Real.cos (2 * π * f * (p.1 - tau))
      let sinv := Real.sin (2 * π * f * (p.1 - tau))
      (a.1 + p.2 * cosv, a.2.1 + cosv ^ 2, a.2.2.1 + p.2 * sinv, a.2.2.2 + sinv ^ 2))
    (0, 0, 0, 0)

/-- The Lomb-Scargle `tau(f)` time shift. -/
def scargle_tau (times : List ℝ) (f : ℝ) : ℝ :=
  let ct := times.foldl (fun a t => a + Real.cos (4 * π * f * t)) 0
  let st := times.foldl (fun a t => a + Real.sin (4 * π * f * t)) 0
  1 / (4 * π * f) * arctan2 st ct

/-- `scargle_ampl_single`: amplitude of the Scargle periodogram at one
frequency. -/
def scargle_ampl_single (times signal : List ℝ) (f : ℝ) : ℝ :=
  let tau := scargle_tau times f
  let s := scargleSums times signal f tau
  let a_cos_2 := s.1 ^ 2 / s.2.1
  let b_sin_2 := s.2.2.1 ^ 2 / s.2.2.2
  Real.sqrt (4 / (times.length : ℝ)) * Real.sqrt ((a_cos_2 + b_sin_2) / 2)

/-- `scargle_phase_single`: phase of the Scargle periodogram at one frequency
(sine convention; NOT wrapped to any interval). -/
def scargle_phase_single (times signal : List ℝ) (f : ℝ) : ℝ :=
  let tau := scargle_tau times f
  let s := scargleSums times signal f tau
  let a_cos := s.1 / Real.sqrt s.2.1
  let b_sin := s.2.2.1 / Real.sqrt s.2.2.2
  π / 2 - arctan2 b_sin a_cos - 2 * π * f * tau

/-! ## Single-frequency extractors. -/

/-- The refinement pass shared by the extractors: re-evaluate the
periodogram in a clamped `±df` window around the peak `fc` at the finer
resolution `dfRef` and take the new argmax. -/
def refinePass (times signal : List ℝ) (fc df dfRef : ℝ) : ℝ × ℝ :=
  let fl := max (fc - df) (0.01 / np_ptp times)
  let fr := fc + df
  let fa := scargle times signal fl fr dfRef
  let p := np_argmax fa.2
  (fa.1.getD p 0, fa.2.getD p 0)

/-- `extract_single`: coarse periodogram argmax, one 100× refinement pass,
then the single-frequency phase, wrapped. -/
def extract_single (times signal : List ℝ) (f0 fn : ℝ) : ℝ × ℝ × ℝ :=
  let df := 0.1 / np_ptp times
  let fa := scargle times signal f0 fn df
  let p1 := np_argmax fa.2
  let r := refinePass times signal (fa.1.getD p1 0) df (df / 100)
  (r.1, r.2, wrapPhase (scargle_phase_single times signal r.1))

/-- The masked coarse grid of `extract_single_harmonics`: the
frequency/amplitude pairs of the coarse periodogram surviving the
avoidance-zone mask around every multiple of `1/p_orb`. -/
def harmonicMaskSel (times signal : List ℝ) (p_orb f0 fn : ℝ) : List (ℝ × ℝ) :=
  let freq_res := 1.5 / np_ptp times
  let df := 0.1 / np_ptp times
  let fa := scargle times signal f0 fn df
  let avoid := freq_res / (np_ptp times / p_orb)
  (fa.1.zip fa.2).filter (fun p =>
    decide (avoid / 2 < np_mod p.1 (1 / p_orb) ∧ np_mod p.1 (1 / p_orb) < 1 / p_orb - avoid / 2))

/-- `extract_single_harmonics`: like `extract_single` but with the coarse
grid masked by `harmonicMaskSel` (the `freqs[mask]`/`ampls[mask]` pair of
the source) before the argmax, and with a third 100× refinement pass;
returns the sentinel `(0, 0, 0)` when the mask removes the whole grid. -/
def extract_single_harmonics (times signal : List ℝ) (p_orb f0 fn : ℝ) : ℝ × ℝ × ℝ :=
  let df := 0.1 / np_ptp times
  let sel := harmonicMaskSel times signal p_orb f0 fn
  if sel = [] then (0, 0, 0) else
  let p1 := np_argmax (sel.map Prod.snd)
  let r1 := refinePass times signal ((sel.map Prod.fst).getD p1 0) df (df / 100)
  let r2 := refinePass times signal r1.1 (df / 100) (df / 10000)
  (r2.1, r2.2, wrapPhase (scargle_phase_single times signal r2.1))

/-! ## Harmonic pattern matcher, modelled from the spec
(`analysis_functions.py` is not among the repository's source files). -/

/-- Modelled from the spec: the harmonic number a frequency is tested
against, the positive integer closest to `f * p_orb`. -/
def harmonicNumber (p_orb f : ℝ) : ℕ := max 1 (round (f * p_orb)).toNat

/-- Modelled from the spec: distance of a frequency from its nearest
harmonic. -/
def harmonicDist (p_orb f : ℝ) : ℝ := |f - (harmonicNumber p_orb f : ℝ) / p_orb|

/-- Modelled from the spec: `analysis_functions.find_harmonics_tolerance`.
Returns the `(index, harmonic number)` pairs of the entries of `f_n` within
`f_tol` of an integer multiple of `1/p_orb`; of several entries within
tolerance of the same multiple only the closest is kept (the earlier index
on an exact tie). -/
def find_harmonics_tolerance (f_n : List ℝ) (p_orb f_tol : ℝ) : List (ℕ × ℕ) :=
  let cands := f_n.enum.filterMap (fun p =>
    if harmonicDist p_orb p.2 ≤ f_tol then some (p.1, harmonicNumber p_orb p.2) else none)
  cands.filter (fun c => decide (∀ d ∈ cands, d.2 = c.2 →
    harmonicDist p_orb (f_n.getD c.1 0) < harmonicDist p_orb (f_n.getD d.1 0) ∨
      (harmonicDist p_orb (f_n.getD c.1 0) = harmonicDist p_orb (f_n.getD d.1 0) ∧ c.1 ≤ d.1)))

/-- Modelled from the spec: `analysis_functions.find_harmonics_from_pattern`,
the matcher at the spec's tight tolerance `1e-9` used once harmonics are
locked. -/
def find_harmonics_from_pattern (f_n : List ℝ) (p_orb : ℝ) : List (ℕ × ℕ) :=
  find_harmonics_tolerance f_n p_orb (1 / 10 ^ 9)

/-- numpy `np.unique` of a list of naturals: ascending, without repeats. -/
def uniqueSorted (l : List ℕ) : List ℕ :=
  (List.range (l.foldl max 0 + 1)).filter (fun n => decide (n ∈ l))

/-- Modelled from the spec: `analysis_functions.f_within_rayleigh`, the
chained set of indices whose frequencies are connected to index `i` through
steps of at most one Rayleigh resolution. -/
def f_within_rayleigh (i : ℕ) (f_n : List ℝ) (freq_res : ℝ) : List ℕ :=
  let step := fun (s : List ℕ) =>
    (List.range f_n.length).filter (fun j =>
      decide (∃ k ∈ s, |f_n.getD j 0 - f_n.getD k 0| ≤ freq_res))
  step^[f_n.length] [i]

/-! ## Accept/reject conditions of the BIC-gated loops. -/

/-- The loop condition of `extract_all` and `extract_additional_frequencies`:
`bic_prev - bic > 2`, with NO rounding; `none` models the `np.inf`
initialisation of `bic_prev` (for which the float comparison is always
true). -/
def extractAllCond : Option ℝ → ℝ → Prop
  | none, _ => True
  | some bp, b => bp - b > 2

/-- The loop condition of `refine_subset` (and its harmonics sibling):
`np.round(bic_prev - bic, 2) > 0`; `none` models the `np.inf`
initialisation. -/
def refineSubsetCond : Option ℝ → ℝ → Prop
  | none, _ => True
  | some bp, b => np_round_2 (bp - b) > 0

/-- The accept condition of `extract_additional_harmonics`'s candidate loop:
`np.round(bic_prev - bic, 2) > 2`. -/
def extraHarmCond (bp b : ℝ) : Prop := np_round_2 (bp - b) > 2

/-! ## `refine_subset` (fuelled). -/

/-- Five returned arrays `(const, slope, f_n, a_n, ph_n)`. -/
abbrev Params := List ℝ × List ℝ × List ℝ × List ℝ × List ℝ

/-- One `for j in close_f` sweep of `refine_subset`: re-extract each close
frequency in turn against the model missing it. -/
def refineSweep (times signal : List ℝ) (i_sectors : List (ℕ × ℕ)) (freq_res : ℝ)
    (close_f : List ℕ) (st : Params) : Params :=
  close_f.foldl
    (fun s j =>
      let model := listAdd (linear_curve times s.1 s.2.1 i_sectors)
        (sum_sines times (s.2.2.1.eraseIdx j) (s.2.2.2.1.eraseIdx j) (s.2.2.2.2.eraseIdx j))
      let resid := listSub signal model
      let e := extract_single times resid (s.2.2.1.getD j 0 - freq_res) (s.2.2.1.getD j 0 + freq_res)
      (s.1, s.2.1, s.2.2.1.set j e.1, s.2.2.2.1.set j e.2.1, s.2.2.2.2.set j e.2.2))
    st

/-- The inner state of `refine_subset`'s while loop: accepted arrays,
candidate arrays with their const/slope, `bic_prev` (`none` = `np.inf`) and
the candidate BIC. -/
structure RSState where
  fN : List ℝ
  aN : List ℝ
  phN : List ℝ
  temp : Params
  bicPrev : Option ℝ
  bic : ℝ

/-- The loop body of `refine_subset` after a commit: sweep the close
frequencies, refit the trend, recompute the BIC. -/
def refineBody (times signal signal_err : List ℝ) (i_sectors : List (ℕ × ℕ))
    (freq_res : ℝ) (close_f : List ℕ) (n_param : ℕ) (st : RSState) : RSState :=
  let sw := refineSweep times signal i_sectors freq_res close_f st.temp
  let model := sum_sines times sw.2.2.1 sw.2.2.2.1 sw.2.2.2.2
  let cs := linear_pars times (listSub signal model) i_sectors
  let model2 := listAdd model (linear_curve times cs.1 cs.2 i_sectors)
  let resid := listSub signal model2
  { fN := st.fN, aN := st.aN, phN := st.phN,
    temp := (cs.1, cs.2, sw.2.2.1, sw.2.2.2.1, sw.2.2.2.2),
    bicPrev := st.bicPrev,
    bic := calc_bic (listDiv resid signal_err) n_param }

/-- The while loop of `refine_subset` with fuel; on exit the accepted arrays
get a freshly fitted trend. -/
def refineLoop (times signal signal_err : List ℝ) (i_sectors : List (ℕ × ℕ))
    (freq_res : ℝ) (close_f : List ℕ) (n_param : ℕ) :
    ℕ → RSState → Option Params
  | 0, _ => none
  | fuel + 1, st =>
    if refineSubsetCond st.bicPrev st.bic then
      refineLoop times signal signal_err i_sectors freq_res close_f n_param fuel
        (refineBody times signal signal_err i_sectors freq_res close_f n_param
          { st with fN := st.temp.2.2.1, aN := st.temp.2.2.2.1, phN := st.temp.2.2.2.2,
                    bicPrev := some st.bic })
    else
      let cs := linear_pars times (listSub signal (sum_sines times st.fN st.aN st.phN)) i_sectors
      some (cs.1, cs.2, st.fN, st.aN, st.phN)

/-- `refine_subset`: refine a chained subset of close frequencies until the
rounded BIC no longer improves (fuelled). -/
def refine_subset (times signal signal_err : List ℝ) (close_f : List ℕ)
    (const slope f_n a_n ph_n : List ℝ) (i_sectors : List (ℕ × ℕ)) (fuel : ℕ) :
    Option Params :=
  let freq_res := 1.5 / np_ptp times
  let n_param := 2 * i_sectors.length + 3 * f_n.length
  let model := listAdd (linear_curve times const slope i_sectors) (sum_sines times f_n a_n ph_n)
  let resid := listSub signal model
  refineLoop times signal signal_err i_sectors freq_res close_f n_param fuel
    { fN := f_n, aN := a_n, phN := ph_n, temp := (const, slope, f_n, a_n, ph_n),
      bicPrev := none, bic := calc_bic (listDiv resid signal_err) n_param }

/-! ## `extract_all` (fuelled). -/

/-- The state of `extract_all`'s prewhitening loop. -/
structure EAState where
  const : List ℝ
  slope : List ℝ
  fN : List ℝ
  aN : List ℝ
  phN : List ℝ
  fT : List ℝ
  aT : List ℝ
  phT : List ℝ
  resid : List ℝ
  bicPrev : Option ℝ
  bic : ℝ
  iter : ℕ

/-- The trend refit step shared by `extract_all`'s loop body and the
recomputation of a model's BIC: sinusoid model, trend fitted to the
sinusoid-subtracted signal, and the full-model residual. -/
def refitTrendStep (times signal : List ℝ) (i_sectors : List (ℕ × ℕ))
    (f a ph : List ℝ) : (List ℝ × List ℝ) × List ℝ :=
  let model := sum_sines times f a ph
  let cs := linear_pars times (listSub signal model) i_sectors
  ((cs.1, cs.2), listSub signal (listAdd model (linear_curve times cs.1 cs.2 i_sectors)))

/-- BIC of a sinusoid set after refitting the linear trend, counting
`2` parameters per sector and `3` per sinusoid. -/
def refitBIC (times signal signal_err : List ℝ) (i_sectors : List (ℕ × ℕ))
    (f a ph : List ℝ) : ℝ :=
  calc_bic (listDiv (refitTrendStep times signal i_sectors f a ph).2 signal_err)
    (2 * i_sectors.length + 3 * f.length)

/-- The initial state of `extract_all`: trend fitted to the raw signal, no
sinusoids, `bic_prev = np.inf` (`none`). -/
def extractAllInit (times signal signal_err : List ℝ) (i_sectors : List (ℕ × ℕ)) : EAState :=
  let cs := linear_pars times signal i_sectors
  let resid := listSub signal (linear_curve times cs.1 cs.2 i_sectors)
  { const := cs.1, slope := cs.2, fN := [], aN := [], phN := [],
    fT := [], aT := [], phT := [], resid := resid, bicPrev := none,
    bic := calc_bic (listDiv resid signal_err) (2 * i_sectors.length), iter := 0 }

/-- The commit at the top of `extract_all`'s loop: the candidate arrays
become the accepted state and `bic_prev` takes the candidate BIC. -/
def extractAllCommit (st : EAState) : EAState :=
  { st with fN := st.fT, aN := st.aT, phN := st.phT, bicPrev := some st.bic }

/-- The body of `extract_all`'s loop after the commit: extract one new
candidate frequency from the residual, refine the chained close frequencies
(not on the very first iteration), refit the trend and recompute the BIC. -/
def extractAllBody (times signal signal_err : List ℝ) (i_sectors : List (ℕ × ℕ))
    (rfuel : ℕ) (st : EAState) : Option EAState :=
  let freq_res := 1.5 / np_ptp times
  let e := extract_single times st.resid 0 0
  let fT := st.fT ++ [e.1]
  let aT := st.aT ++ [e.2.1]
  let phT := st.phT ++ [e.2.2]
  let close_f := f_within_rayleigh st.iter fT freq_res
  let step2 : Option Params :=
    if st.iter > 0 ∧ close_f.length > 1 then
      refine_subset times signal signal_err close_f st.const st.slope fT aT phT i_sectors rfuel
    else some (st.const, st.slope, fT, aT, phT)
  step2.map (fun p =>
    let r := refitTrendStep times signal i_sectors p.2.2.1 p.2.2.2.1 p.2.2.2.2
    { const := r.1.1, slope := r.1.2, fN := st.fN, aN := st.aN, phN := st.phN,
      fT := p.2.2.1, aT := p.2.2.2.1, phT := p.2.2.2.2, resid := r.2,
      bicPrev := st.bicPrev,
      bic := calc_bic (listDiv r.2 signal_err) (2 * i_sectors.length + 3 * p.2.2.1.length),
      iter := st.iter + 1 })

/-- The exit of `extract_all`: drop the candidate, refit the trend to the
accepted sinusoid set and return it. -/
def extractAllFinish (times signal : List ℝ) (i_sectors : List (ℕ × ℕ)) (st : EAState) :
    Params :=
  let cs := linear_pars times (listSub signal (sum_sines times st.fN st.aN st.phN)) i_sectors
  (cs.1, cs.2, st.fN, st.aN, st.phN)

/-- The fuelled while loop of `extract_all`. -/
def extractAllLoop (times signal signal_err : List ℝ) (i_sectors : List (ℕ × ℕ))
    (rfuel : ℕ) : ℕ → EAState → Option Params
  | 0, _ => none
  | fuel + 1, st =>
    if extractAllCond st.bicPrev st.bic then
      (extractAllBody times signal signal_err i_sectors rfuel (extractAllCommit st)).bind
        (extractAllLoop times signal signal_err i_sectors rfuel fuel)
    else some (extractAllFinish times signal i_sectors st)

/-- `extract_all`: the prewhitening loop.  The source shifts the caller's
`times` in place to start at `times[0]`; the shifted array is what every
internal computation (and the caller, afterwards) sees. -/
def extract_all (times signal signal_err : List ℝ) (i_sectors : List (ℕ × ℕ))
    (rfuel fuel : ℕ) : Option Params :=
  let ts := times.map (fun t => t - times.headD 0)
  extractAllLoop ts signal signal_err i_sectors rfuel fuel
    (extractAllInit ts signal signal_err i_sectors)

/-- The committed transitions of `extract_all`'s loop: `EASteps … st st'`
holds when the loop can go from loop-head state `st` to loop-head state
`st'` through commits, each guarded by the un-rounded `bic_prev - bic > 2`
test. -/
inductive EASteps (times signal signal_err : List ℝ) (i_sectors : List (ℕ × ℕ))
    (rfuel : ℕ) : EAState → EAState → Prop
  | refl (st : EAState) : EASteps times signal signal_err i_sectors rfuel st st
  | step (st st' st'' : EAState) :
      extractAllCond st.bicPrev st.bic →
      extractAllBody times signal signal_err i_sectors rfuel (extractAllCommit st) = some st' →
      EASteps times signal signal_err i_sectors rfuel st' st'' →
      EASteps times signal signal_err i_sectors rfuel st st''

/-! ## `fix_harmonic_frequency`. -/

/-- One pass of `fix_harmonic_frequency`'s harmonic-number loop: remove the
entries matched to number `n`, evaluate amplitude and phase at the exact
`n / p_orb` on the remaining-model residual, append the locked entry (phase
wrapped) and refit the trend. -/
def fixHarmStep (times signal : List ℝ) (p_orb f_tolerance : ℝ)
    (i_sectors : List (ℕ × ℕ)) (st : Params) (n : ℕ) : Params :=
  let hm := find_harmonics_tolerance st.2.2.1 p_orb f_tolerance
  let remove := (hm.filter (fun c => decide (c.2 = n))).map Prod.fst
  let f1 := deleteIdxs st.2.2.1 remove
  let a1 := deleteIdxs st.2.2.2.1 remove
  let ph1 := deleteIdxs st.2.2.2.2 remove
  let model := listAdd (linear_curve times st.1 st.2.1 i_sectors) (sum_sines times f1 a1 ph1)
  let resid := listSub signal model
  let fNew := f1 ++ [(n : ℝ) / p_orb]
  let aNew := a1 ++ [scargle_ampl_single times resid ((n : ℝ) / p_orb)]
  let phNew := ph1 ++ [wrapPhase (scargle_phase_single times resid ((n : ℝ) / p_orb))]
  let cs := linear_pars times (listSub signal (sum_sines times fNew aNew phNew)) i_sectors
  (cs.1, cs.2, fNew, aNew, phNew)

/-- One pass of `fix_harmonic_frequency`'s non-harmonic re-extraction loop:
re-extract frequency `i` in a `±freq_res` window around its old value
(phase wrapped) and refit the trend. -/
def fixHarmReextract (times signal : List ℝ) (freq_res : ℝ)
    (i_sectors : List (ℕ × ℕ)) (st : Params) (i : ℕ) : Params :=
  let model := listAdd (linear_curve times st.1 st.2.1 i_sectors)
    (sum_sines times (st.2.2.1.eraseIdx i) (st.2.2.2.1.eraseIdx i) (st.2.2.2.2.eraseIdx i))
  let e := extract_single times (listSub signal model)
    (st.2.2.1.getD i 0 - freq_res) (st.2.2.1.getD i 0 + freq_res)
  let f' := st.2.2.1.set i e.1
  let a' := st.2.2.2.1.set i e.2.1
  let ph' := st.2.2.2.2.set i (wrapPhase e.2.2)
  let cs := linear_pars times (listSub signal (sum_sines times f' a' ph')) i_sectors
  (cs.1, cs.2, f', a', ph')

/-- `fix_harmonic_frequency`: lock every matched harmonic to the exact
`n / p_orb` (re-deriving amplitude and phase there), then re-extract the
non-harmonic frequencies; `none` models the `ValueError` raised when no
harmonic is matched. -/
def fix_harmonic_frequency (times signal : List ℝ) (p_orb : ℝ)
    (const slope f_n a_n ph_n : List ℝ) (i_sectors : List (ℕ × ℕ)) : Option Params :=
  let freq_res := 1.5 / np_ptp times
  let f_tolerance := min (freq_res / 2) (1 / (2 * p_orb))
  let hm := find_harmonics_tolerance f_n p_orb f_tolerance
  if hm = [] then none else
  let ns := uniqueSorted (hm.map Prod.snd)
  let st1 := ns.foldl (fixHarmStep times signal p_orb f_tolerance i_sectors)
    (const, slope, f_n, a_n, ph_n)
  let hm2 := find_harmonics_from_pattern st1.2.2.1 p_orb
  let non_harm := (List.range st1.2.2.1.length).filter
    (fun i => decide (i ∉ hm2.map Prod.fst))
  some (non_harm.foldl (fixHarmReextract times signal freq_res i_sectors) st1)

/-! ## `extract_additional_harmonics`. -/

/-- The accumulating state of `extract_additional_harmonics`'s candidate
loop: current arrays, residual, `bic_prev` and acceptance count. -/
structure AHState where
  const : List ℝ
  slope : List ℝ
  fN : List ℝ
  aN : List ℝ
  phN : List ℝ
  resid : List ℝ
  bicPrev : ℝ
  nAcc : ℕ

/-- One candidate of `extract_additional_harmonics`: evaluate amplitude and
phase (wrapped) at `h_c / p_orb` on the current residual, refit, and accept
when the rounded BIC drop exceeds 2, otherwise revert. -/
def extraHarmTry (times signal signal_err : List ℝ) (p_orb : ℝ)
    (i_sectors : List (ℕ × ℕ)) (n_param_orig : ℕ) (st : AHState) (h_c : ℕ) : AHState :=
  let f_c := (h_c : ℝ) / p_orb
  let a_c := scargle_ampl_single times st.resid f_c
  let ph_c := wrapPhase (scargle_phase_single times st.resid f_c)
  let fT := st.fN ++ [f_c]
  let aT := st.aN ++ [a_c]
  let phT := st.phN ++ [ph_c]
  let model := sum_sines times fT aT phT
  let cs := linear_pars times (listSub signal model) i_sectors
  let resid2 := listSub signal (listAdd (linear_curve times cs.1 cs.2 i_sectors) model)
  let n_param := n_param_orig + 2 * (st.nAcc + 1)
  let bic := calc_bic (listDiv resid2 signal_err) n_param
  if extraHarmCond st.bicPrev bic then
    { const := cs.1, slope := cs.2, fN := fT, aN := aT, phN := phT,
      resid := resid2, bicPrev := bic, nAcc := st.nAcc + 1 }
  else
    let cs2 := linear_pars times (listSub signal (sum_sines times st.fN st.aN st.phN)) i_sectors
    let resid3 := listSub signal (listAdd (linear_curve times cs2.1 cs2.2 i_sectors)
      (sum_sines times st.fN st.aN st.phN))
    { const := cs2.1, slope := cs2.2, fN := st.fN, aN := st.aN, phN := st.phN,
      resid := resid3, bicPrev := st.bicPrev, nAcc := st.nAcc }

/-- `extract_additional_harmonics`: try every not-yet-present harmonic
number up to the Nyquist bound as a fixed-frequency candidate, keeping those
whose rounded BIC drop exceeds 2.  `none` models both the explicit
`ValueError` when no harmonic is matched and the `IndexError` of
`np.delete` when a matched harmonic number lies beyond the candidate
range. -/
def extract_additional_harmonics (times signal signal_err : List ℝ) (p_orb : ℝ)
    (const slope f_n a_n ph_n : List ℝ) (i_sectors : List (ℕ × ℕ)) : Option Params :=
  let f_max := 1 / (2 * minDiff times)
  let hm := find_harmonics_from_pattern f_n p_orb
  if hm = [] then none else
  let h_candidate := (List.range ⌈p_orb * f_max - 1⌉₊).map (fun k => k + 1)
  (npDeletePos h_candidate (hm.map (fun c => c.2 - 1))).map (fun h_cand =>
    let model := listAdd (linear_curve times const slope i_sectors)
      (sum_sines times f_n a_n ph_n)
    let resid := listSub signal model
    let n_param_orig := 3 * f_n.length + 2 - hm.length + 1
    let st := h_cand.foldl (extraHarmTry times signal signal_err p_orb i_sectors n_param_orig)
      { const := const, slope := slope, fN := f_n, aN := a_n, phN := ph_n,
        resid := resid, bicPrev := calc_bic (listDiv resid signal_err) n_param_orig, nAcc := 0 }
    (st.const, st.slope, st.fN, st.aN, st.phN))

/-! ## BIC recomputation, as the spec's testable properties state it. -/

/-- The BIC of a returned `(const, slope, f_n, a_n, ph_n)` model, recomputed
from scratch with the parameter count `2` per sector plus `3` per sinusoid
(spec §4.4, §8). -/
def modelBIC (times signal signal_err : List ℝ) (i_sectors : List (ℕ × ℕ))
    (const slope f a ph : List ℝ) : ℝ :=
  calc_bic
    (listDiv (listSub signal (listAdd (sum_sines times f a ph)
      (linear_curve times const slope i_sectors))) signal_err)
    (2 * i_sectors.length + 3 * f.length)

/-! ## Basic lemmas -/

theorem foldl_add_sq (l : List ℝ) (a : ℝ) :
    l.foldl (fun acc r => acc + r ^ 2) a = a + (l.map (fun r => r ^ 2)).sum := by
  induction l generalizing a with
  | nil => simp
  | cons x xs ih => simp [List.foldl_cons, ih, add_assoc]

theorem roundHalfEven_eq_add_one {x : ℝ} {n : ℤ} (h1 : (n : ℝ) + 1 / 2 < x)
    (h2 : x < (n : ℝ) + 1) : roundHalfEven x = n + 1 := by
  have h0 : (n : ℝ) ≤ x := by linarith
  have hfl : ⌊x⌋ = n := by
    rw [Int.floor_eq_iff]
    exact ⟨h0, by linarith⟩
  have hfr : Int.fract x = x - n := by rw [Int.fract, hfl]
  unfold roundHalfEven
  rw [hfr, hfl, if_neg (by linarith), if_pos (by linarith)]

theorem roundHalfEven_eq_self {x : ℝ} {n : ℤ} (h1 : (n : ℝ) ≤ x)
    (h2 : x < (n : ℝ) + 1 / 2) : roundHalfEven x = n := by
  have hfl : ⌊x⌋ = n := by
    rw [Int.floor_eq_iff]
    exact ⟨h1, by linarith⟩
  have hfr : Int.fract x = x - n := by rw [Int.fract, hfl]
  unfold roundHalfEven
  rw [hfr, hfl, if_pos (by linarith)]

theorem np_mod_eq_fract (x : ℝ) {m : ℝ} (hm : m ≠ 0) :
    np_mod x m = m * Int.fract (x / m) := by
  unfold np_mod Int.fract
  field_simp

theorem np_mod_nonneg (x : ℝ) {m : ℝ} (hm : 0 < m) : 0 ≤ np_mod x m := by
  rw [np_mod_eq_fract x hm.ne']
  exact mul_nonneg hm.le (Int.fract_nonneg _)

theorem np_mod_lt (x : ℝ) {m : ℝ} (hm : 0 < m) : np_mod x m < m := by
  rw [np_mod_eq_fract x hm.ne']
  calc m * Int.fract (x / m) < m * 1 := by
        exact mul_lt_mul_of_pos_left (Int.fract_lt_one _) hm
    _ = m := mul_one m

theorem wrapPhase_mem_Ico (x : ℝ) : wrapPhase x ∈ Set.Ico (-π) π := by
  have h2π : (0 : ℝ) < 2 * π := by positivity
  constructor
  · have := np_mod_nonneg (x + π) h2π
    unfold wrapPhase
    linarith
  · have := np_mod_lt (x + π) h2π
    unfold wrapPhase
    linarith

theorem wrapPhase_pi : wrapPhase π = -π := by
  unfold wrapPhase np_mod
  have h1 : (π + π) / (2 * π) = 1 := by
    rw [show π + π = 2 * π by ring]
    exact div_self (by positivity)
  rw [h1]
  norm_num
  ring

/-! ## C10: the BIC formula -/

/-- C10: for a residual array and parameter count, `calc_bic` equals
`N·ln(2π·Σr²/N) + N + k·ln N`, the sum taken over the squared residuals. -/
theorem calc_bic_closed_form (residuals : List ℝ) (n_param : ℕ)
    (_hne : residuals ≠ []) :
    calc_bic residuals n_param =
      (residuals.length : ℝ) *
          Real.log (2 * π * ((residuals.map (fun r => r ^ 2)).sum) / residuals.length) +
        residuals.length + n_param * Real.log residuals.length := by
  unfold calc_bic
  rw [foldl_add_sq]
  norm_num

/-- Witness for C10 at the one-element residual array `[1]` with `k = 2`. -/
theorem calc_bic_closed_form_witness :
    calc_bic [1] 2 = (1 : ℝ) * Real.log (2 * π * 1 / 1) + 1 + 2 * Real.log 1 := by
  have h := calc_bic_closed_form [1] 2 (by simp)
  simpa using h

/-! ## C3: which accept/reject tests round the BIC difference -/

/-- C3 (amended): the refinement loop and the additional-harmonics loop
compare the rounded difference `np.round(bic_prev - bic, 2)` against their
thresholds 0 and 2, but `extract_all`'s prewhitening gate compares the
UN-rounded difference `bic_prev - bic > 2`; at `bic_prev - bic = 2.001` the
un-rounded gate accepts while the rounded one would not. -/
theorem bic_gate_rounding :
    (∀ bp b : ℝ, extractAllCond (some bp) b ↔ bp - b > 2) ∧
    (∀ bp b : ℝ, refineSubsetCond (some bp) b ↔ np_round_2 (bp - b) > 0) ∧
    (∀ bp b : ℝ, extraHarmCond bp b ↔ np_round_2 (bp - b) > 2) ∧
    extractAllCond (some (2001 / 1000)) 0 ∧ np_round_2 (2001 / 1000 - 0) ≤ 2 := by
  refine ⟨fun bp b => Iff.rfl, fun bp b => Iff.rfl, fun bp b => Iff.rfl,
    by show (2001 : ℝ) / 1000 - 0 > 2; norm_num, ?_⟩
  have h : roundHalfEven ((2001 / 1000 - 0) * 100) = 200 := by
    have := roundHalfEven_eq_self (x := (2001 / 1000 - 0) * 100) (n := 200)
      (by norm_num) (by norm_num)
    simpa using this
  unfold np_round_2
  rw [h]
  norm_num

/-- C3 counterexample: the claim says every accept/reject test compares the
rounded difference; `extract_all`'s gate at `bic_prev - bic = 2.001` holds
although the rounded test `round(2.001, 2) > 2` fails. -/
theorem extract_all_gate_unrounded :
    extractAllCond (some (2001 / 1000)) 0 ∧ np_round_2 (2001 / 1000 - 0) ≤ 2 := by
  refine ⟨by show (2001 : ℝ) / 1000 - 0 > 2; norm_num, ?_⟩
  have h : roundHalfEven ((2001 / 1000 - 0) * 100) = 200 := by
    have := roundHalfEven_eq_self (x := (2001 / 1000 - 0) * 100) (n := 200)
      (by norm_num) (by norm_num)
    simpa using this
  unfold np_round_2
  rw [h]
  norm_num

/-! ## C4: the cluster-merge pass undercounts the replacement frequency -/

/-- C4 (code bug): the BIC state of an accepted cluster merge in
`reduce_frequencies`.  With `N = 2` points, one sector and four sinusoids
(`k = 2 + 3·4 = 14`, normalised residuals `[1, 1]`), merging two sinusoids
into one gives residuals `[2, 2]` and a model of three sinusoids; the
source counts `k = 2 + 3·len(f_n_temp) = 8`, omitting the replacement
frequency (its harmonics sibling adds the `+ 1`).  The accept test
`round(bic_prev - bic, 2) > 0` then succeeds, although the consistently
counted BIC (`k = 11`) of the merged model is WORSE than the initial BIC —
the merge worsens the recomputed BIC, contradicting the claim. -/
theorem reduce_merge_param_undercount :
    np_round_2 (calc_bic [1, 1] 14 - calc_bic [2, 2] 8) > 0 ∧
    calc_bic [1, 1] 14 < calc_bic [2, 2] 11 := by
  have hL : Real.log (2 * π * 8 / 2) = 2 * Real.log 2 + Real.log (2 * π * 2 / 2) := by
    have h1 : (2 : ℝ) * π * 8 / 2 = 4 * (2 * π * 2 / 2) := by ring
    have h2 : (0 : ℝ) < 2 * π * 2 / 2 := by positivity
    rw [h1, Real.log_mul (by norm_num) h2.ne']
    have h4 : (4 : ℝ) = 2 ^ 2 := by norm_num
    rw [h4, Real.log_pow]
    push_cast
    ring
  have e1 : calc_bic [1, 1] 14 =
      2 * Real.log (2 * π * 2 / 2) + 2 + 14 * Real.log 2 := by
    unfold calc_bic
    norm_num
  have e2 : calc_bic [2, 2] 8 =
      2 * Real.log (2 * π * 8 / 2) + 2 + 8 * Real.log 2 := by
    unfold calc_bic
    norm_num
  have e3 : calc_bic [2, 2] 11 =
      2 * Real.log (2 * π * 8 / 2) + 2 + 11 * Real.log 2 := by
    unfold calc_bic
    norm_num
  have hdiff : calc_bic [1, 1] 14 - calc_bic [2, 2] 8 = 2 * Real.log 2 := by
    rw [e1, e2, hL]
    ring
  have hlog2pos : 0 < Real.log 2 := Real.log_pos (by norm_num)
  constructor
  · rw [hdiff]
    have hlo : (138 : ℝ) + 1 / 2 < 2 * Real.log 2 * 100 := by
      have := Real.log_two_gt_d9
      linarith
    have hhi : 2 * Real.log 2 * 100 < (138 : ℝ) + 1 := by
      have := Real.log_two_lt_d9
      linarith
    have h : roundHalfEven (2 * Real.log 2 * 100) = 139 := by
      have := roundHalfEven_eq_add_one (x := 2 * Real.log 2 * 100) (n := 138) hlo hhi
      simpa using this
    unfold np_round_2
    rw [h]
    norm_num
  · rw [e1, e3, hL]
    nlinarith [hlog2pos]

/-! ## Harmonic matcher lemmas -/

theorem mem_cands_iff (f_n : List ℝ) (p_orb f_tol : ℝ) (c : ℕ × ℕ) :
    c ∈ f_n.enum.filterMap (fun p =>
        if harmonicDist p_orb p.2 ≤ f_tol then some (p.1, harmonicNumber p_orb p.2) else none) ↔
      ∃ v, f_n.get? c.1 = some v ∧ harmonicDist p_orb v ≤ f_tol ∧
        c.2 = harmonicNumber p_orb v := by
  constructor
  · intro hc
    simp only [List.mem_filterMap] at hc
    obtain ⟨p, hp, he⟩ := hc
    by_cases hd : harmonicDist p_orb p.2 ≤ f_tol
    · rw [if_pos hd] at he
      obtain rfl := Option.some.inj he
      exact ⟨p.2, List.mem_enum_iff_get?.mp hp, hd, rfl⟩
    · rw [if_neg hd] at he
      exact absurd he (by simp)
  · rintro ⟨v, hv, hd, hn⟩
    simp only [List.mem_filterMap]
    refine ⟨(c.1, v), List.mem_enum_iff_get?.mpr hv, ?_⟩
    rw [if_pos hd, ← hn]

theorem find_harmonics_tolerance_sound (f_n : List ℝ) (p_orb f_tol : ℝ) (c : ℕ × ℕ)
    (hc : c ∈ find_harmonics_tolerance f_n p_orb f_tol) :
    |f_n.getD c.1 0 - (c.2 : ℝ) / p_orb| ≤ f_tol := by
  unfold find_harmonics_tolerance at hc
  have hc' := List.mem_of_mem_filter hc
  rw [mem_cands_iff] at hc'
  obtain ⟨v, hv, hd, hn⟩ := hc'
  have hg : f_n.getD c.1 0 = v := by
    show (f_n.get? c.1).getD 0 = v
    rw [hv]
    rfl
  rw [hg, hn]
  exact hd

/-! ## C7: the no-harmonics-found error -/

/-- C7 (amended): `fix_harmonic_frequency` raises exactly when the harmonic
matcher finds no frequency consistent with a harmonic; its sibling
`extract_additional_harmonics` raises when the matcher finds none, but ALSO
when a matched harmonic number lies beyond the Nyquist-bounded candidate
range (the out-of-range position list of `np.delete`). -/
theorem no_harmonics_found_raise :
    (∀ (times signal : List ℝ) (p_orb : ℝ) (const slope f_n a_n ph_n : List ℝ)
        (i_sectors : List (ℕ × ℕ)),
      fix_harmonic_frequency times signal p_orb const slope f_n a_n ph_n i_sectors = none ↔
        find_harmonics_tolerance f_n p_orb
          (min (1.5 / np_ptp times / 2) (1 / (2 * p_orb))) = []) ∧
    (∀ (times signal signal_err : List ℝ) (p_orb : ℝ) (const slope f_n a_n ph_n : List ℝ)
        (i_sectors : List (ℕ × ℕ)),
      extract_additional_harmonics times signal signal_err p_orb const slope f_n a_n ph_n
          i_sectors = none ↔
        (find_harmonics_from_pattern f_n p_orb = [] ∨
          npDeletePos ((List.range ⌈p_orb * (1 / (2 * minDiff times)) - 1⌉₊).map (fun k => k + 1))
            ((find_harmonics_from_pattern f_n p_orb).map (fun c => c.2 - 1)) = none)) := by
  constructor
  · intro times signal p_orb const slope f_n a_n ph_n i_sectors
    unfold fix_harmonic_frequency
    by_cases h : find_harmonics_tolerance f_n p_orb
        (min (1.5 / np_ptp times / 2) (1 / (2 * p_orb))) = []
    · rw [if_pos h]
      exact iff_of_true rfl h
    · rw [if_neg h]
      exact iff_of_false (by simp) h
  · intro times signal signal_err p_orb const slope f_n a_n ph_n i_sectors
    unfold extract_additional_harmonics
    by_cases h : find_harmonics_from_pattern f_n p_orb = []
    · rw [if_pos h]
      simp [h]
    · rw [if_neg h]
      rw [Option.map_eq_none']
      simp [h]

/-! ## List and periodogram structural lemmas -/

theorem foldl_preserves {α β : Type} (Q : β → Prop) (f : β → α → β) (l : List α) (b : β)
    (hb : Q b) (hf : ∀ b' a, Q b' → Q (f b' a)) : Q (l.foldl f b) := by
  induction l generalizing b with
  | nil => exact hb
  | cons x xs ih => exact ih (f b x) (hf b x hb)

theorem mem_of_mem_deleteIdxs {α : Type} {l : List α} {idx : List ℕ} {x : α}
    (h : x ∈ deleteIdxs l idx) : x ∈ l := by
  unfold deleteIdxs at h
  simp only [List.mem_map] at h
  obtain ⟨p, hp, rfl⟩ := h
  exact List.get?_mem (List.mem_enum_iff_get?.mp (List.mem_of_mem_filter hp))

theorem getD_mem_of_lt {l : List ℝ} {n : ℕ} (h : n < l.length) (d : ℝ) : l.getD n d ∈ l := by
  rw [List.getD_eq_getElem l d h]
  exact List.getElem_mem h

theorem np_argmax_lt_length (l : List ℝ) (h : l ≠ []) : np_argmax l < l.length := by
  induction l with
  | nil => exact absurd rfl h
  | cons x xs ih =>
    simp only [np_argmax]
    by_cases hxs : xs = []
    · subst hxs
      simp
    · have hlt := ih hxs
      split
      · simpa using Nat.succ_lt_succ hlt
      · simp

theorem scargleRot_length (sd cd : ℝ) (l : List (ℝ × ℝ)) (s c : ℝ) :
    (scargleRot sd cd l s c).length = l.length := by
  induction l generalizing s c with
  | nil => rfl
  | cons p rest ih => simp [scargleRot, ih]

theorem scargle_fold_lengths (f0 df : ℝ) (l : List (ℝ × ℝ))
    (acc : List (ℝ × ℝ) × List (ℝ × ℝ)) :
    (l.foldl (fun a ty => scarglePoint f0 df ty.1 ty.2 a) acc).1.length = acc.1.length ∧
    (l.foldl (fun a ty => scarglePoint f0 df ty.1 ty.2 a) acc).2.length = acc.2.length := by
  induction l generalizing acc with
  | nil => exact ⟨rfl, rfl⟩
  | cons x xs ih =>
    rw [List.foldl_cons]
    have h := ih (scarglePoint f0 df x.1 x.2 acc)
    unfold scarglePoint at h
    simpa [scargleRot_length] using h

theorem scargle_snd_length (times signal : List ℝ) (f0 fn df : ℝ) :
    (scargle times signal f0 fn df).2.length = (scargle times signal f0 fn df).1.length := by
  unfold scargle
  dsimp only
  rw [List.length_map, List.length_map, List.length_zip, List.length_map, List.length_range,
    (scargle_fold_lengths _ _ _ _).1, (scargle_fold_lengths _ _ _ _).2]
  simp

theorem scargle_grid_ge (times signal : List ℝ) (f0 fn df : ℝ) (hdf : 0 < df) :
    ∀ x ∈ (scargle times signal f0 fn df).1, max f0 (0.01 / np_ptp times) ≤ x := by
  intro x hx
  unfold scargle at hx
  dsimp only at hx
  simp only [List.mem_map, List.mem_range] at hx
  obtain ⟨j, _, rfl⟩ := hx
  rw [if_neg hdf.ne']
  have h : (0 : ℝ) ≤ (j : ℝ) * df := mul_nonneg (Nat.cast_nonneg j) hdf.le
  linarith

theorem scargle_grid_ne_nil (times signal : List ℝ) (f0 fn df : ℝ) (hdf : 0 < df)
    (hfn : fn ≠ 0) (hle : max f0 (0.01 / np_ptp times) ≤ fn) :
    (scargle times signal f0 fn df).1 ≠ [] := by
  unfold scargle
  dsimp only
  rw [if_neg hfn, if_neg hdf.ne']
  simp only [ne_eq, List.map_eq_nil, List.range_eq_nil]
  have hx : (0 : ℝ) ≤ (fn - max f0 (0.01 / np_ptp times)) / df + 0.001 := by
    have h1 : (0 : ℝ) ≤ (fn - max f0 (0.01 / np_ptp times)) / df :=
      div_nonneg (by linarith) hdf.le
    linarith
  have hfl : 0 ≤ ⌊(fn - max f0 (0.01 / np_ptp times)) / df + 0.001⌋ :=
    Int.floor_nonneg.mpr hx
  unfold intTrunc
  rw [if_pos hx, Int.toNat_eq_zero]
  intro hcon
  linarith [hfl]

theorem refinePass_fst_ge (times signal : List ℝ) (fc df dfRef : ℝ)
    (hptp : 0 < np_ptp times) (hdf : 0 < df) (hdfr : 0 < dfRef)
    (hfc : 0.01 / np_ptp times ≤ fc) :
    0.01 / np_ptp times ≤ (refinePass times signal fc df dfRef).1 := by
  have h001 : (0 : ℝ) < 0.01 / np_ptp times := by positivity
  have hfr : (0 : ℝ) < fc + df := by linarith
  have hle : max (max (fc - df) (0.01 / np_ptp times)) (0.01 / np_ptp times) ≤ fc + df := by
    rw [max_le_iff, max_le_iff]
    refine ⟨⟨by linarith, by linarith⟩, by linarith⟩
  have hne := scargle_grid_ne_nil times signal (max (fc - df) (0.01 / np_ptp times))
    (fc + df) dfRef hdfr hfr.ne' hle
  have hlen := scargle_snd_length times signal (max (fc - df) (0.01 / np_ptp times))
    (fc + df) dfRef
  have hane : (scargle times signal (max (fc - df) (0.01 / np_ptp times)) (fc + df) dfRef).2 ≠ [] := by
    intro h
    apply hne
    apply List.length_eq_zero.mp
    rw [← hlen, h]
    rfl
  have hplt := np_argmax_lt_length _ hane
  rw [hlen] at hplt
  unfold refinePass
  have hmem := getD_mem_of_lt hplt 0
  have := scargle_grid_ge times signal (max (fc - df) (0.01 / np_ptp times)) (fc + df) dfRef hdfr
    _ hmem
  calc 0.01 / np_ptp times ≤ max (max (fc - df) (0.01 / np_ptp times)) (0.01 / np_ptp times) :=
        le_max_right _ _
    _ ≤ _ := this

/-! ## C8: the degenerate masked window of `extract_single_harmonics` -/

/-- C8: when the avoidance mask removes the whole coarse grid
`extract_single_harmonics` returns the sentinel `(0, 0, 0)` (and, the
embedding being total, does not raise); otherwise the returned frequency is
a genuine grid frequency, at least the clamp `0.01 / T` and in particular
positive (never the sentinel value 0). -/
theorem extract_single_harmonics_sentinel :
    (∀ (times signal : List ℝ) (p_orb f0 fn : ℝ),
      harmonicMaskSel times signal p_orb f0 fn = [] →
        extract_single_harmonics times signal p_orb f0 fn = (0, 0, 0)) ∧
    (∀ (times signal : List ℝ) (p_orb f0 fn : ℝ), 0 < np_ptp times →
      harmonicMaskSel times signal p_orb f0 fn ≠ [] →
        0.01 / np_ptp times ≤ (extract_single_harmonics times signal p_orb f0 fn).1 ∧
        0 < (extract_single_harmonics times signal p_orb f0 fn).1) := by
  constructor
  · intro times signal p_orb f0 fn h
    unfold extract_single_harmonics
    rw [if_pos h]
  · intro times signal p_orb f0 fn hptp hsel
    have h001 : (0 : ℝ) < 0.01 / np_ptp times := by positivity
    have hdf : (0 : ℝ) < 0.1 / np_ptp times := by positivity
    suffices h : 0.01 / np_ptp times ≤ (extract_single_harmonics times signal p_orb f0 fn).1 by
      exact ⟨h, lt_of_lt_of_le h001 h⟩
    unfold extract_single_harmonics
    rw [if_neg hsel]
    have hp1 : np_argmax ((harmonicMaskSel times signal p_orb f0 fn).map Prod.snd) <
        ((harmonicMaskSel times signal p_orb f0 fn).map Prod.fst).length := by
      rw [List.length_map]
      have := np_argmax_lt_length ((harmonicMaskSel times signal p_orb f0 fn).map Prod.snd)
        (by simpa using hsel)
      simpa using this
    have hmem := getD_mem_of_lt hp1 0
    have hselF : 0.01 / np_ptp times ≤
        ((harmonicMaskSel times signal p_orb f0 fn).map Prod.fst).getD
          (np_argmax ((harmonicMaskSel times signal p_orb f0 fn).map Prod.snd)) 0 := by
      simp only [List.mem_map] at hmem
      obtain ⟨pr, hpr, heq⟩ := hmem
      have hpr2 : pr ∈ (scargle times signal f0 fn (0.1 / np_ptp times)).1.zip
          (scargle times signal f0 fn (0.1 / np_ptp times)).2 := by
        unfold harmonicMaskSel at hpr
        exact List.mem_of_mem_filter hpr
      have h1 : pr.1 ∈ (scargle times signal f0 fn (0.1 / np_ptp times)).1 :=
        (List.of_mem_zip hpr2).1
      rw [← heq]
      exact le_trans (le_max_right _ _)
        (scargle_grid_ge times signal f0 fn (0.1 / np_ptp times) hdf pr.1 h1)
    have hr1 := refinePass_fst_ge times signal
      (((harmonicMaskSel times signal p_orb f0 fn).map Prod.fst).getD
        (np_argmax ((harmonicMaskSel times signal p_orb f0 fn).map Prod.snd)) 0)
      (0.1 / np_ptp times) (0.1 / np_ptp times / 100) hptp hdf (by positivity) hselF
    exact refinePass_fst_ge times signal _ (0.1 / np_ptp times / 100)
      (0.1 / np_ptp times / 10000) hptp (by positivity) (by positivity) hr1

/-! ## C5: phase values emitted by `fix_harmonic_frequency` -/

/-- C5 (amended): every freshly wrapped phase lands in the half-open
interval `[-π, π)` — closed at `-π` and open at `π`, not the claimed
`(-π, π]` — and every phase `fix_harmonic_frequency` emits is either such a
wrapped value or an untouched input phase. -/
theorem fix_harmonic_phase_range :
    (∀ x : ℝ, wrapPhase x ∈ Set.Ico (-π) π) ∧
    (∀ (times signal : List ℝ) (p_orb : ℝ) (const slope f_n a_n ph_n : List ℝ)
        (i_sectors : List (ℕ × ℕ)) (out : Params),
      fix_harmonic_frequency times signal p_orb const slope f_n a_n ph_n i_sectors = some out →
      ∀ p ∈ out.2.2.2.2, p ∈ Set.Ico (-π) π ∨ p ∈ ph_n) := by
  refine ⟨wrapPhase_mem_Ico, ?_⟩
  intro times signal p_orb const slope f_n a_n ph_n i_sectors out h
  unfold fix_harmonic_frequency at h
  by_cases hhm : find_harmonics_tolerance f_n p_orb
      (min (1.5 / np_ptp times / 2) (1 / (2 * p_orb))) = []
  · rw [if_pos hhm] at h
    exact absurd h (by simp)
  · rw [if_neg hhm] at h
    obtain rfl := Option.some.inj h
    have Q : ∀ (st : Params), (∀ p ∈ st.2.2.2.2, p ∈ Set.Ico (-π) π ∨ p ∈ ph_n) →
        ∀ (i : ℕ), ∀ p ∈ (fixHarmReextract times signal (1.5 / np_ptp times) i_sectors st i).2.2.2.2,
          p ∈ Set.Ico (-π) π ∨ p ∈ ph_n := by
      intro st hst i p hp
      unfold fixHarmReextract at hp
      simp only at hp
      rcases List.mem_or_eq_of_mem_set hp with h1 | h2
      · exact hst p h1
      · exact Or.inl (h2 ▸ wrapPhase_mem_Ico _)
    have Q0 : ∀ (st : Params), (∀ p ∈ st.2.2.2.2, p ∈ Set.Ico (-π) π ∨ p ∈ ph_n) →
        ∀ (n : ℕ), ∀ p ∈ (fixHarmStep times signal p_orb
            (min (1.5 / np_ptp times / 2) (1 / (2 * p_orb))) i_sectors st n).2.2.2.2,
          p ∈ Set.Ico (-π) π ∨ p ∈ ph_n := by
      intro st hst n p hp
      unfold fixHarmStep at hp
      simp only [List.mem_append, List.mem_singleton] at hp
      rcases hp with h1 | h2
      · exact hst p (mem_of_mem_deleteIdxs h1)
      · exact Or.inl (h2 ▸ wrapPhase_mem_Ico _)
    have hst1 := foldl_preserves
      (fun st : Params => ∀ p ∈ st.2.2.2.2, p ∈ Set.Ico (-π) π ∨ p ∈ ph_n)
      (fixHarmStep times signal p_orb
        (min (1.5 / np_ptp times / 2) (1 / (2 * p_orb))) i_sectors)
      (uniqueSorted ((find_harmonics_tolerance f_n p_orb
        (min (1.5 / np_ptp times / 2) (1 / (2 * p_orb)))).map Prod.snd))
      (const, slope, f_n, a_n, ph_n)
      (fun p hp => Or.inr hp)
      (fun st n hst => Q0 st hst n)
    exact foldl_preserves
      (fun st : Params => ∀ p ∈ st.2.2.2.2, p ∈ Set.Ico (-π) π ∨ p ∈ ph_n)
      (fixHarmReextract times signal (1.5 / np_ptp times) i_sectors) _ _ hst1
      (fun st i hst => Q st hst i)

/-- C7 counterexample: with `times = [0, 1]` (Nyquist `1/2`), `p_orb = 2`
and `f_n = [2]` the matcher finds harmonic number 4, yet
`extract_additional_harmonics` raises: the candidate list `arange(1, 1.0)`
is empty and `np.delete` is handed position 3, out of range. -/
theorem extra_harmonics_oob_raise :
    (0, 4) ∈ find_harmonics_from_pattern [(2 : ℝ)] 2 ∧
    extract_additional_harmonics [0, 1] [0, 0] [1, 1] 2 [] [] [(2 : ℝ)] [1] [0]
      [(0, 2)] = none := by
  have hnum : harmonicNumber 2 2 = 4 := by
    unfold harmonicNumber
    have h : round ((2 : ℝ) * 2) = 4 := by norm_num [round_eq, Int.floor_eq_iff]
    rw [h]
    rfl
  have hmem : (0, 4) ∈ find_harmonics_from_pattern [(2 : ℝ)] 2 := by
    unfold find_harmonics_from_pattern find_harmonics_tolerance
    apply List.mem_filter.mpr
    refine ⟨?_, ?_⟩
    · rw [mem_cands_iff]
      refine ⟨2, rfl, ?_, hnum.symm⟩
      unfold harmonicDist
      rw [hnum]
      norm_num
    · apply decide_eq_true
      intro d hd _
      rw [mem_cands_iff] at hd
      obtain ⟨v, hv, _, _⟩ := hd
      have hd1 : d.1 = 0 := by
        match hx : d.1 with
        | 0 => rfl
        | n + 1 => rw [hx] at hv; simp at hv
      right
      rw [hd1]
      exact ⟨rfl, Nat.le_refl 0⟩
  refine ⟨hmem, ?_⟩
  unfold extract_additional_harmonics
  rw [if_neg (List.ne_nil_of_mem hmem)]
  rw [Option.map_eq_none']
  unfold npDeletePos
  rw [if_neg]
  intro hall
  have h3 : (3 : ℕ) ∈ (find_harmonics_from_pattern [(2 : ℝ)] 2).map (fun c => c.2 - 1) :=
    List.mem_map.mpr ⟨(0, 4), hmem, rfl⟩
  have := hall 3 h3
  have hceil : ⌈(2 : ℝ) * (1 / (2 * minDiff [0, 1])) - 1⌉₊ = 0 := by
    have hmd : minDiff [(0 : ℝ), 1] = 1 := by
      unfold minDiff listSub listMin
      norm_num
    rw [hmd]
    norm_num
  rw [hceil] at this
  simp at this

/-! ## Zero-signal and zero-amplitude evaluation lemmas -/

theorem foldl_preserves_mem {α β : Type} (Q : β → Prop) (f : β → α → β) (l : List α) (b : β)
    (hb : Q b) (hf : ∀ b' a, a ∈ l → Q b' → Q (f b' a)) : Q (l.foldl f b) := by
  induction l generalizing b with
  | nil => exact hb
  | cons x xs ih =>
    exact ih (f b x) (hf b x (by simp) hb) (fun b' a ha hq => hf b' a (by simp [ha]) hq)

theorem sum_zipWith_zero_right (f : ℝ → ℝ → ℝ) (hf : ∀ t, f t 0 = 0) :
    ∀ (ts ys : List ℝ), (∀ y ∈ ys, y = 0) → (List.zipWith f ts ys).sum = 0 := by
  intro ts
  induction ts with
  | nil => intro ys _; simp
  | cons t ts ih =>
    intro ys hy
    cases ys with
    | nil => simp
    | cons y ys =>
      have h0 : y = 0 := hy y (by simp)
      rw [List.zipWith_cons_cons, List.sum_cons, h0, hf, ih ys (fun a ha => hy a (by simp [ha]))]
      norm_num

theorem zipWith_left_id (g : ℝ → ℝ → ℝ) (hg : ∀ m t, g m t = m) :
    ∀ (model times : List ℝ), model.length = times.length →
      List.zipWith g model times = model := by
  intro model
  induction model with
  | nil => intro times _; simp
  | cons m ms ih =>
    intro times hlen
    cases times with
    | nil => simp at hlen
    | cons t ts =>
      rw [List.zipWith_cons_cons, hg, ih ts (by simpa using hlen)]

theorem sum_sines_zero_amps (times f_n a_n ph_n : List ℝ) (ha : ∀ a ∈ a_n, a = 0) :
    sum_sines times f_n a_n ph_n = times.map (fun _ => 0) := by
  unfold sum_sines
  apply foldl_preserves_mem (fun model => model = times.map (fun _ => 0)) _ _ _ rfl
  intro model fap hfap hmodel
  have hz : fap.2.1 = 0 := by
    have h1 : fap.2 ∈ a_n.zip ph_n := (List.of_mem_zip hfap).2
    exact ha fap.2.1 (List.of_mem_zip h1).1
  rw [hz]
  simp only [zero_mul, add_zero]
  subst hmodel
  apply zipWith_left_id _ (fun m t => rfl)
  rw [List.length_map]

theorem seg_all_zero {zs : List ℝ} (hz : ∀ y ∈ zs, y = 0) (a b : ℕ) :
    ∀ y ∈ seg zs a b, y = 0 := by
  intro y hy
  exact hz y (List.mem_of_mem_take (List.mem_of_mem_drop hy))

theorem linear_pars_zero_signal (times zs : List ℝ) (hz : ∀ y ∈ zs, y = 0)
    (i_sectors : List (ℕ × ℕ)) :
    linear_pars times zs i_sectors =
      (i_sectors.map (fun _ => 0), i_sectors.map (fun _ => 0)) := by
  unfold linear_pars
  have hmap : i_sectors.map (fun s =>
      let ts := seg times s.1 s.2
      let ys := seg zs s.1 s.2
      let x_m := np_mean ts
      let y_m := np_mean ys
      let s_xx := (ts.map (fun t => (t - x_m) ^ 2)).sum
      let s_xy := (List.zipWith (fun t y => (t - x_m) * (y - y_m)) ts ys).sum
      let sl := s_xy / s_xx
      ((y_m - sl * x_m : ℝ), sl)) = i_sectors.map (fun _ => ((0 : ℝ), (0 : ℝ))) := by
    apply List.map_congr_left
    intro s _
    have hys := seg_all_zero hz s.1 s.2
    have hym : np_mean (seg zs s.1 s.2) = 0 := by
      unfold np_mean
      rw [List.sum_eq_zero hys]
      exact zero_div _
    have hxy : (List.zipWith (fun t y => (t - np_mean (seg times s.1 s.2)) * y)
        (seg times s.1 s.2) (seg zs s.1 s.2)).sum = 0 :=
      sum_zipWith_zero_right _ (fun t => by ring) _ _ hys
    simp only [hym, sub_zero]
    rw [hxy]
    norm_num
  rw [hmap]
  induction i_sectors with
  | nil => rfl
  | cons s ss ih => simp [List.unzip_cons, ih]

/-! ## Trigonometric values at the quarter-period sample points -/

theorem sin_three_pi_div_two : Real.sin (3 * π / 2) = -1 := by
  have h : (3 : ℝ) * π / 2 = π + π / 2 := by ring
  rw [h, Real.sin_add]
  simp

theorem cos_three_pi_div_two : Real.cos (3 * π / 2) = 0 := by
  have h : (3 : ℝ) * π / 2 = π + π / 2 := by ring
  rw [h, Real.cos_add]
  simp

theorem sin_three_pi : Real.sin (3 * π) = 0 := by
  have h : (3 : ℝ) * π = π + 2 * π := by ring
  rw [h, Real.sin_add]
  simp

theorem cos_three_pi : Real.cos (3 * π) = -1 := by
  have h : (3 : ℝ) * π = π + 2 * π := by ring
  rw [h, Real.cos_add]
  simp

theorem arctan2_zero_zero : arctan2 0 0 = 0 := by
  unfold arctan2
  norm_num

theorem arctan2_neg_zero {y : ℝ} (hy : y < 0) : arctan2 y 0 = -π / 2 := by
  unfold arctan2
  rw [if_neg (lt_irrefl 0), if_neg (lt_irrefl 0), if_neg (by linarith), if_pos hy]

theorem wrapPhase_pi_div_two : wrapPhase (π / 2) = π / 2 := by
  unfold wrapPhase np_mod
  have h1 : (π / 2 + π) / (2 * π) = 3 / 4 := by
    have hπ : π ≠ 0 := Real.pi_ne_zero
    field_simp
    ring
  rw [h1]
  have h2 : ⌊(3 : ℝ) / 4⌋ = 0 := by norm_num [Int.floor_eq_iff]
  rw [h2]
  push_cast
  ring

/-! ## A concrete run of `fix_harmonic_frequency` at quarter-period samples:
`times = [0, 1/4, 1/2, 3/4]`, `signal = [0, -1, 0, 1]`, `p_orb = 1`, one
input sinusoid `f = 1` of amplitude 0.  The locked harmonic's raw Scargle
phase is exactly `π`, which the wrap maps to `-π`. -/

theorem ptp_quarter : np_ptp [0, 1/4, 1/2, 3/4] = 3 / 4 := by
  unfold np_ptp listMax listMin
  simp only [List.foldl, List.headD]
  norm_num [max_def, min_def]

theorem tau_quarter : scargle_tau [0, 1/4, 1/2, 3/4] 1 = 0 := by
  unfold scargle_tau
  simp only [List.foldl]
  rw [show (4 : ℝ) * π * 1 * 0 = 0 by ring, show (4 : ℝ) * π * 1 * (1 / 4) = π by ring,
    show (4 : ℝ) * π * 1 * (1 / 2) = 2 * π by ring,
    show (4 : ℝ) * π * 1 * (3 / 4) = 3 * π by ring,
    Real.cos_zero, Real.cos_pi, Real.cos_two_pi, cos_three_pi,
    Real.sin_zero, Real.sin_pi, Real.sin_two_pi, sin_three_pi]
  rw [show (0 : ℝ) + 1 + -1 + 1 + -1 = 0 by ring, show (0 : ℝ) + 0 + 0 + 0 + 0 = 0 by ring,
    arctan2_zero_zero]
  ring

theorem sums_quarter : scargleSums [0, 1/4, 1/2, 3/4] [0, -1, 0, 1] 1 0 = (0, 2, -2, 2) := by
  unfold scargleSums
  simp only [List.zip, List.zipWith, List.foldl]
  rw [show (2 : ℝ) * π * 1 * (0 - 0) = 0 by ring,
    show (2 : ℝ) * π * 1 * (1 / 4 - 0) = π / 2 by ring,
    show (2 : ℝ) * π * 1 * (1 / 2 - 0) = π by ring,
    show (2 : ℝ) * π * 1 * (3 / 4 - 0) = 3 * π / 2 by ring,
    Real.cos_zero, Real.cos_pi_div_two, Real.cos_pi, cos_three_pi_div_two,
    Real.sin_zero, Real.sin_pi_div_two, Real.sin_pi, sin_three_pi_div_two]
  norm_num

theorem ampl_quarter : scargle_ampl_single [0, 1/4, 1/2, 3/4] [0, -1, 0, 1] 1 = 1 := by
  unfold scargle_ampl_single
  dsimp only
  rw [tau_quarter, sums_quarter]
  norm_num [Real.sqrt_one]

theorem phase_quarter : scargle_phase_single [0, 1/4, 1/2, 3/4] [0, -1, 0, 1] 1 = π := by
  unfold scargle_phase_single
  dsimp only
  rw [tau_quarter, sums_quarter]
  have hs2 : (0 : ℝ) < Real.sqrt 2 := Real.sqrt_pos.mpr (by norm_num)
  have hneg : (-2 : ℝ) / Real.sqrt 2 < 0 := div_neg_of_neg_of_pos (by norm_num) hs2
  rw [zero_div, arctan2_neg_zero hneg]
  ring

theorem sines_quarter : sum_sines [0, 1/4, 1/2, 3/4] [1] [1] [-π] = [0, -1, 0, 1] := by
  unfold sum_sines
  simp only [List.zip, List.zipWith, List.foldl, List.map]
  rw [show (2 : ℝ) * π * 1 * 0 + -π = -π by ring,
    show (2 : ℝ) * π * 1 * (1 / 4) + -π = -(π / 2) by ring,
    show (2 : ℝ) * π * 1 * (1 / 2) + -π = 0 by ring,
    show (2 : ℝ) * π * 1 * (3 / 4) + -π = π / 2 by ring,
    Real.sin_neg, Real.sin_neg, Real.sin_pi, Real.sin_pi_div_two, Real.sin_zero]
  norm_num

theorem harmonicNumber_one_one : harmonicNumber 1 1 = 1 := by
  unfold harmonicNumber
  have h : round ((1 : ℝ) * 1) = 1 := by norm_num [round_eq, Int.floor_eq_iff]
  rw [h]
  rfl

theorem harmonicDist_one_one : harmonicDist 1 1 = 0 := by
  unfold harmonicDist
  rw [harmonicNumber_one_one]
  norm_num

theorem matcher_one (tol : ℝ) (htol : 0 ≤ tol) :
    find_harmonics_tolerance [1] 1 tol = [(0, 1)] := by
  unfold find_harmonics_tolerance
  have henum : ([(1 : ℝ)]).enum = [(0, (1 : ℝ))] := rfl
  rw [henum]
  have hf : (if harmonicDist 1 (1 : ℝ) ≤ tol then
      some ((0 : ℕ), harmonicNumber 1 (1 : ℝ)) else none) = some (0, 1) := by
    rw [if_pos (by rw [harmonicDist_one_one]; exact htol), harmonicNumber_one_one]
  rw [List.filterMap_cons, List.filterMap_nil]
  dsimp only
  rw [hf]
  apply List.filter_cons_of_pos
  apply decide_eq_true
  intro d hd hd2
  rcases List.mem_singleton.mp hd with rfl
  right
  exact ⟨rfl, Nat.le_refl 0⟩

theorem fix_harm_step_quarter (tol : ℝ) (htol : 0 ≤ tol) :
    fixHarmStep [0, 1/4, 1/2, 3/4] [0, -1, 0, 1] 1 tol [(0, 4)]
      ([0], [0], [1], [0], [0]) 1 = ([0], [0], [1], [1], [-π]) := by
  unfold fixHarmStep
  rw [matcher_one tol htol]
  have hfilter : ([((0 : ℕ), (1 : ℕ))].filter (fun c => decide (c.2 = 1))).map Prod.fst
      = [0] := rfl
  dsimp only
  rw [hfilter]
  have hdel1 : deleteIdxs [(1 : ℝ)] [0] = [] := rfl
  have hdel2 : deleteIdxs [(0 : ℝ)] [0] = [] := rfl
  rw [hdel1, hdel2]
  have hsines0 : sum_sines [0, 1/4, 1/2, 3/4] [] [] [] = [0, 0, 0, 0] := by
    rw [sum_sines_zero_amps _ _ _ _ (by intro a ha; simp at ha)]
    rfl
  have hlc0 : linear_curve [0, 1/4, 1/2, 3/4] [0] [0] [(0, 4)] = [0, 0, 0, 0] := by
    unfold linear_curve
    simp only [List.zip, List.zipWith, List.foldl, List.map, List.mapIdx]
    norm_num [List.mapIdx.go]
  rw [hsines0, hlc0]
  have hresid : listSub [0, -1, 0, 1] (listAdd [0, 0, 0, 0] [0, 0, 0, 0])
      = [(0 : ℝ), -1, 0, 1] := by
    unfold listSub listAdd
    simp only [List.zipWith]
    norm_num
  rw [hresid]
  have hcast : ((1 : ℕ) : ℝ) / 1 = 1 := by norm_num
  rw [hcast, ampl_quarter, phase_quarter, wrapPhase_pi]
  simp only [List.nil_append]
  rw [sines_quarter]
  have hsub : listSub [0, -1, 0, 1] [(0 : ℝ), -1, 0, 1] = [0, 0, 0, 0] := by
    unfold listSub
    simp only [List.zipWith]
    norm_num
  rw [hsub]
  rw [linear_pars_zero_signal _ _ (by intro y hy; simpa using hy) _]
  rfl

theorem fix_harm_quarter_run :
    fix_harmonic_frequency [0, 1/4, 1/2, 3/4] [0, -1, 0, 1] 1 [0] [0] [1] [0] [0]
      [(0, 4)] = some ([0], [0], [1], [1], [-π]) := by
  simp only [fix_harmonic_frequency]
  have htol : (0 : ℝ) ≤ min (1.5 / np_ptp [0, 1/4, 1/2, 3/4] / 2) (1 / (2 * 1)) := by
    rw [ptp_quarter]
    norm_num
  rw [matcher_one _ htol]
  rw [if_neg (by simp)]
  have huniq : uniqueSorted ([((0 : ℕ), (1 : ℕ))].map Prod.snd) = [1] := rfl
  rw [huniq]
  rw [List.foldl_cons, List.foldl_nil, fix_harm_step_quarter _ htol]
  have hpat : find_harmonics_from_pattern [1] 1 = [(0, 1)] :=
    matcher_one _ (by norm_num)
  rw [hpat]
  have hnh : (List.range ([(1 : ℝ)].length)).filter
      (fun i => decide (i ∉ ([((0 : ℕ), (1 : ℕ))].map Prod.fst))) = [] := rfl
  rw [hnh, List.foldl_nil]

/-- C5 counterexample: on `times = [0, 1/4, 1/2, 3/4]`,
`signal = [0, -1, 0, 1]`, `p_orb = 1` and the single zero-amplitude input
sinusoid `(1, 0, 0)`, `fix_harmonic_frequency` emits the phase `-π` for the
locked harmonic — a value outside the claimed interval `(-π, π]`. -/
theorem fix_harmonic_emits_neg_pi :
    fix_harmonic_frequency [0, 1/4, 1/2, 3/4] [0, -1, 0, 1] 1 [0] [0] [1] [0] [0]
      [(0, 4)] = some ([0], [0], [1], [1], [-π]) ∧
    ¬(-π ∈ Set.Ioc (-π) π) := by
  refine ⟨fix_harm_quarter_run, ?_⟩
  intro h
  exact absurd h.1 (lt_irrefl _)

/-! ## A concrete run of `fix_harmonic_frequency` on a long baseline:
`times = [0, 8e9 + 1/4]` makes the matching tolerance
`min(0.75/T, 1/2) < 1e-10`, so the input frequency `5 + 1e-10` is NOT
matched by the locking loop, yet IS matched (as harmonic 5) by the tight
`1e-9` pattern matcher on the returned set — without being exactly
`5/p_orb`. -/

theorem ptp_long : np_ptp [0, 8 * 10 ^ 9 + 1/4] = 8 * 10 ^ 9 + 1/4 := by
  unfold np_ptp listMax listMin
  simp only [List.foldl, List.headD]
  norm_num [max_def, min_def]

theorem cos_long_angle : Real.cos (4 * π * 1 * (8 * 10 ^ 9 + 1/4)) = -1 := by
  have h : (4 : ℝ) * π * 1 * (8 * 10 ^ 9 + 1/4) = π + (16 * 10 ^ 9 : ℤ) * (2 * π) := by
    push_cast
    ring
  rw [h, Real.cos_add_int_mul_two_pi, Real.cos_pi]

theorem sin_long_angle : Real.sin (4 * π * 1 * (8 * 10 ^ 9 + 1/4)) = 0 := by
  have h : (4 : ℝ) * π * 1 * (8 * 10 ^ 9 + 1/4) = π + (16 * 10 ^ 9 : ℤ) * (2 * π) := by
    push_cast
    ring
  rw [h, Real.sin_add_int_mul_two_pi, Real.sin_pi]

theorem cos_long_half : Real.cos (2 * π * 1 * (8 * 10 ^ 9 + 1/4 - 0)) = 0 := by
  have h : (2 : ℝ) * π * 1 * (8 * 10 ^ 9 + 1/4 - 0) = π / 2 + (8 * 10 ^ 9 : ℤ) * (2 * π) := by
    push_cast
    ring
  rw [h, Real.cos_add_int_mul_two_pi, Real.cos_pi_div_two]

theorem sin_long_half : Real.sin (2 * π * 1 * (8 * 10 ^ 9 + 1/4 - 0)) = 1 := by
  have h : (2 : ℝ) * π * 1 * (8 * 10 ^ 9 + 1/4 - 0) = π / 2 + (8 * 10 ^ 9 : ℤ) * (2 * π) := by
    push_cast
    ring
  rw [h, Real.sin_add_int_mul_two_pi, Real.sin_pi_div_two]

theorem tau_long : scargle_tau [0, 8 * 10 ^ 9 + 1/4] 1 = 0 := by
  unfold scargle_tau
  simp only [List.foldl]
  rw [show (4 : ℝ) * π * 1 * 0 = 0 by ring, Real.cos_zero, Real.sin_zero,
    cos_long_angle, sin_long_angle]
  rw [show (0 : ℝ) + 1 + -1 = 0 by ring, show (0 : ℝ) + 0 + 0 = 0 by ring, arctan2_zero_zero]
  ring

theorem sums_long : scargleSums [0, 8 * 10 ^ 9 + 1/4] [0, 0] 1 0 = (0, 1, 0, 1) := by
  unfold scargleSums
  simp only [List.zip, List.zipWith, List.foldl]
  rw [show (2 : ℝ) * π * 1 * (0 - 0) = 0 by ring, Real.cos_zero, Real.sin_zero,
    cos_long_half, sin_long_half]
  norm_num

theorem ampl_long : scargle_ampl_single [0, 8 * 10 ^ 9 + 1/4] [0, 0] 1 = 0 := by
  unfold scargle_ampl_single
  dsimp only
  rw [tau_long, sums_long]
  norm_num

theorem phase_long : scargle_phase_single [0, 8 * 10 ^ 9 + 1/4] [0, 0] 1 = π / 2 := by
  unfold scargle_phase_single
  dsimp only
  rw [tau_long, sums_long]
  rw [Real.sqrt_one]
  norm_num [arctan2_zero_zero]

theorem harmonicNumber_long : harmonicNumber 1 (5 + 1 / 10 ^ 10) = 5 := by
  unfold harmonicNumber
  have h : round ((5 + 1 / 10 ^ 10 : ℝ) * 1) = 5 := by
    rw [round_eq]
    norm_num [Int.floor_eq_iff]
  rw [h]
  rfl

theorem harmonicDist_long : harmonicDist 1 (5 + 1 / 10 ^ 10) = 1 / 10 ^ 10 := by
  unfold harmonicDist
  rw [harmonicNumber_long]
  norm_num

theorem matcher_long_tol (tol : ℝ) (h0 : 0 ≤ tol) (h1 : tol < 1 / 10 ^ 10) :
    find_harmonics_tolerance [5 + 1 / 10 ^ 10, 1] 1 tol = [(1, 1)] := by
  unfold find_harmonics_tolerance
  have henum : ([(5 + 1 / 10 ^ 10 : ℝ), 1]).enum = [(0, (5 + 1 / 10 ^ 10 : ℝ)), (1, 1)] := rfl
  rw [henum, List.filterMap_cons, List.filterMap_cons, List.filterMap_nil]
  dsimp only
  rw [if_neg (by rw [harmonicDist_long]; linarith),
    if_pos (by rw [harmonicDist_one_one]; exact h0), harmonicNumber_one_one]
  apply List.filter_cons_of_pos
  apply decide_eq_true
  intro d hd hd2
  rcases List.mem_singleton.mp hd with rfl
  right
  exact ⟨rfl, Nat.le_refl 1⟩

theorem matcher_long_pattern :
    find_harmonics_from_pattern [5 + 1 / 10 ^ 10, 1] 1 = [(0, 5), (1, 1)] := by
  unfold find_harmonics_from_pattern find_harmonics_tolerance
  have henum : ([(5 + 1 / 10 ^ 10 : ℝ), 1]).enum = [(0, (5 + 1 / 10 ^ 10 : ℝ)), (1, 1)] := rfl
  rw [henum, List.filterMap_cons, List.filterMap_cons, List.filterMap_nil]
  dsimp only
  rw [if_pos (by rw [harmonicDist_long]; norm_num),
    if_pos (by rw [harmonicDist_one_one]; norm_num), harmonicNumber_long,
    harmonicNumber_one_one]
  dsimp only
  apply List.filter_eq_self.mpr
  intro c hc
  apply decide_eq_true
  intro d hd hd2
  rcases List.mem_cons.mp hc with rfl | hc1
  · rcases List.mem_cons.mp hd with rfl | hd1
    · right
      exact ⟨rfl, Nat.le_refl 0⟩
    · rcases List.mem_singleton.mp hd1 with rfl
      simp at hd2
  · rcases List.mem_singleton.mp hc1 with rfl
    rcases List.mem_cons.mp hd with rfl | hd1
    · simp at hd2
    · rcases List.mem_singleton.mp hd1 with rfl
      right
      exact ⟨rfl, Nat.le_refl 1⟩

theorem fix_harm_step_long (tol : ℝ) (h0 : 0 ≤ tol) (h1 : tol < 1 / 10 ^ 10) :
    fixHarmStep [0, 8 * 10 ^ 9 + 1/4] [0, 0] 1 tol [(0, 2)]
      ([0], [0], [5 + 1 / 10 ^ 10, 1], [0, 0], [0, 0]) 1
      = ([0], [0], [5 + 1 / 10 ^ 10, 1], [0, 0], [0, π / 2]) := by
  unfold fixHarmStep
  rw [matcher_long_tol tol h0 h1]
  dsimp only
  have hfilter : ([((1 : ℕ), (1 : ℕ))].filter (fun c => decide (c.2 = 1))).map Prod.fst
      = [1] := rfl
  rw [hfilter]
  have hdelf : deleteIdxs [(5 + 1 / 10 ^ 10 : ℝ), 1] [1] = [5 + 1 / 10 ^ 10] := rfl
  have hdela : deleteIdxs [(0 : ℝ), 0] [1] = [0] := rfl
  rw [hdelf, hdela]
  rw [sum_sines_zero_amps [0, 8 * 10 ^ 9 + 1/4] [5 + 1 / 10 ^ 10] [0] [0]
    (by intro a ha; simpa using ha)]
  have hlc0 : linear_curve [0, 8 * 10 ^ 9 + 1/4] [0] [0] [(0, 2)] = [0, 0] := by
    unfold linear_curve
    simp only [List.zip, List.zipWith, List.foldl, List.map, List.mapIdx]
    norm_num [List.mapIdx.go]
  rw [show ([(0 : ℝ), 8 * 10 ^ 9 + 1/4].map (fun _ => (0 : ℝ))) = [0, 0] from rfl, hlc0]
  have hresid : listSub [0, 0] (listAdd [0, 0] [0, 0]) = [(0 : ℝ), 0] := by
    unfold listSub listAdd
    simp only [List.zipWith]
    norm_num
  rw [hresid]
  have hcast : ((1 : ℕ) : ℝ) / 1 = 1 := by norm_num
  rw [hcast, ampl_long, phase_long, wrapPhase_pi_div_two]
  simp only [List.cons_append, List.nil_append]
  rw [sum_sines_zero_amps [0, 8 * 10 ^ 9 + 1/4] [5 + 1 / 10 ^ 10, 1] [0, 0] [0, π / 2]
    (by intro a ha; simpa using ha)]
  have hsub : listSub [0, 0] ([(0 : ℝ), 8 * 10 ^ 9 + 1/4].map (fun _ => (0 : ℝ)))
      = [(0 : ℝ), 0] := by
    unfold listSub
    simp only [List.map, List.zipWith]
    norm_num
  rw [hsub]
  rw [linear_pars_zero_signal _ _ (by intro y hy; simpa using hy) _]
  rfl

theorem fix_harm_long_run :
    fix_harmonic_frequency [0, 8 * 10 ^ 9 + 1/4] [0, 0] 1 [0] [0]
      [5 + 1 / 10 ^ 10, 1] [0, 0] [0, 0] [(0, 2)]
      = some ([0], [0], [5 + 1 / 10 ^ 10, 1], [0, 0], [0, π / 2]) := by
  simp only [fix_harmonic_frequency]
  have h0 : (0 : ℝ) ≤ min (1.5 / np_ptp [0, 8 * 10 ^ 9 + 1/4] / 2) (1 / (2 * 1)) := by
    rw [ptp_long]
    norm_num
  have h1 : min (1.5 / np_ptp [0, 8 * 10 ^ 9 + 1/4] / 2) (1 / (2 * 1)) < 1 / 10 ^ 10 := by
    apply lt_of_le_of_lt (min_le_left _ _)
    rw [ptp_long]
    rw [div_div, div_lt_div_iff (by norm_num) (by norm_num)]
    norm_num
  rw [matcher_long_tol _ h0 h1]
  rw [if_neg (by simp)]
  have huniq : uniqueSorted ([((1 : ℕ), (1 : ℕ))].map Prod.snd) = [1] := rfl
  rw [huniq]
  rw [List.foldl_cons, List.foldl_nil, fix_harm_step_long _ h0 h1]
  rw [matcher_long_pattern]
  have hnh : (List.range ([(5 + 1 / 10 ^ 10 : ℝ), 1].length)).filter
      (fun i => decide (i ∉ ([((0 : ℕ), (5 : ℕ)), (1, 1)].map Prod.fst))) = [] := rfl
  rw [hnh, List.foldl_nil]

/-- C2 counterexample: on the long-baseline input the returned `f_n` holds
`5 + 1e-10` at an index the tight pattern matcher classifies as harmonic 5,
yet that value is not exactly `5 / p_orb`. -/
theorem fix_harmonic_inexact_harmonic :
    fix_harmonic_frequency [0, 8 * 10 ^ 9 + 1/4] [0, 0] 1 [0] [0]
      [5 + 1 / 10 ^ 10, 1] [0, 0] [0, 0] [(0, 2)]
      = some ([0], [0], [5 + 1 / 10 ^ 10, 1], [0, 0], [0, π / 2]) ∧
    (0, 5) ∈ find_harmonics_from_pattern [5 + 1 / 10 ^ 10, 1] 1 ∧
    (5 : ℝ) / 1 < 5 + 1 / 10 ^ 10 := by
  refine ⟨fix_harm_long_run, ?_, by norm_num⟩
  rw [matcher_long_pattern]
  simp

/-! ## Exactness of the locked harmonics of `fix_harmonic_frequency` -/

theorem harmonicNumber_pos (p f : ℝ) : 1 ≤ harmonicNumber p f := le_max_left 1 _

theorem harmonicNumber_exact {p : ℝ} (hp : p ≠ 0) {n : ℕ} (hn : 1 ≤ n) :
    harmonicNumber p ((n : ℝ) / p) = n := by
  unfold harmonicNumber
  rw [div_mul_cancel₀ _ hp, round_natCast, Int.toNat_natCast]
  exact Nat.max_eq_right hn

theorem harmonicDist_exact {p : ℝ} (hp : p ≠ 0) {n : ℕ} (hn : 1 ≤ n) :
    harmonicDist p ((n : ℝ) / p) = 0 := by
  unfold harmonicDist
  rw [harmonicNumber_exact hp hn]
  simp

theorem find_harmonics_number {f_n : List ℝ} {p_orb f_tol : ℝ} {c : ℕ × ℕ}
    (hc : c ∈ find_harmonics_tolerance f_n p_orb f_tol) :
    c.2 = harmonicNumber p_orb (f_n.getD c.1 0) ∧ c.1 < f_n.length := by
  unfold find_harmonics_tolerance at hc
  have hc' := List.mem_of_mem_filter hc
  rw [mem_cands_iff] at hc'
  obtain ⟨v, hv, _, hn⟩ := hc'
  have hg : f_n.getD c.1 0 = v := by
    show (f_n.get? c.1).getD 0 = v
    rw [hv]
    rfl
  exact ⟨by rw [hg, hn], List.get?_eq_some.mp hv |>.choose⟩

theorem find_harmonics_pos {f_n : List ℝ} {p_orb f_tol : ℝ} {c : ℕ × ℕ}
    (hc : c ∈ find_harmonics_tolerance f_n p_orb f_tol) : 1 ≤ c.2 := by
  rw [(find_harmonics_number hc).1]
  exact harmonicNumber_pos _ _

theorem mem_deleteIdxs_of_get? {α : Type} {l : List α} {idx : List ℕ} {i : ℕ} {v : α}
    (hv : l.get? i = some v) (hi : i ∉ idx) : v ∈ deleteIdxs l idx := by
  unfold deleteIdxs
  apply List.mem_map.mpr
  refine ⟨(i, v), ?_, rfl⟩
  apply List.mem_filter.mpr
  exact ⟨List.mem_enum_iff_get?.mpr hv, decide_eq_true hi⟩

theorem fixHarmStep_adds_exact (times signal : List ℝ) (p_orb f_tolerance : ℝ)
    (i_sectors : List (ℕ × ℕ)) (st : Params) (n : ℕ) :
    ((n : ℝ) / p_orb) ∈ (fixHarmStep times signal p_orb f_tolerance i_sectors st n).2.2.1 := by
  unfold fixHarmStep
  simp only
  exact List.mem_append.mpr (Or.inr (List.mem_singleton.mpr rfl))

theorem fixHarmStep_preserves_exact (times signal : List ℝ) {p_orb : ℝ} (f_tolerance : ℝ)
    (i_sectors : List (ℕ × ℕ)) (st : Params) (n : ℕ) {m : ℕ}
    (hp : p_orb ≠ 0) (hm1 : 1 ≤ m)
    (hmem : ((m : ℝ) / p_orb) ∈ st.2.2.1) :
    ((m : ℝ) / p_orb) ∈ (fixHarmStep times signal p_orb f_tolerance i_sectors st n).2.2.1 := by
  by_cases hnm : m = n
  · subst hnm
    exact fixHarmStep_adds_exact times signal p_orb f_tolerance i_sectors st m
  · unfold fixHarmStep
    simp only
    apply List.mem_append.mpr
    left
    obtain ⟨i, hi⟩ := List.mem_iff_get?.mp hmem
    apply mem_deleteIdxs_of_get? hi
    intro hin
    simp only [List.mem_map] at hin
    obtain ⟨c, hc, hc1⟩ := hin
    have hc' := List.mem_of_mem_filter hc
    have hnum := (find_harmonics_number hc').1
    have hcn : c.2 = n := by
      have := List.mem_filter.mp hc
      exact of_decide_eq_true this.2
    have hgd : st.2.2.1.getD c.1 0 = (m : ℝ) / p_orb := by
      rw [hc1]
      show (st.2.2.1.get? i).getD 0 = _
      rw [hi]
      rfl
    rw [hgd, harmonicNumber_exact hp hm1] at hnum
    exact hnm (hnum.symm.trans hcn)

theorem foldl_fixHarmStep_preserves (times signal : List ℝ) {p_orb : ℝ} (f_tolerance : ℝ)
    (i_sectors : List (ℕ × ℕ)) (ns : List ℕ) (st : Params) {m : ℕ}
    (hp : p_orb ≠ 0) (hm1 : 1 ≤ m)
    (hmem : ((m : ℝ) / p_orb) ∈ st.2.2.1) :
    ((m : ℝ) / p_orb) ∈
      (ns.foldl (fixHarmStep times signal p_orb f_tolerance i_sectors) st).2.2.1 :=
  foldl_preserves (fun st : Params => ((m : ℝ) / p_orb) ∈ st.2.2.1) _ ns st hmem
    (fun st' n h => fixHarmStep_preserves_exact times signal f_tolerance i_sectors st' n hp hm1 h)

theorem foldl_fixHarmStep_exact (times signal : List ℝ) {p_orb : ℝ} (f_tolerance : ℝ)
    (i_sectors : List (ℕ × ℕ)) (ns : List ℕ) (st : Params)
    (hp : p_orb ≠ 0) (hns : ∀ k ∈ ns, 1 ≤ k) :
    ∀ n ∈ ns, ((n : ℝ) / p_orb) ∈
      (ns.foldl (fixHarmStep times signal p_orb f_tolerance i_sectors) st).2.2.1 := by
  induction ns generalizing st with
  | nil => intro n hn; simp at hn
  | cons k ks ih =>
    intro n hn
    rw [List.foldl_cons]
    rcases List.mem_cons.mp hn with rfl | hn'
    · exact foldl_fixHarmStep_preserves times signal f_tolerance i_sectors ks _ hp
        (hns n (by simp))
        (fixHarmStep_adds_exact times signal p_orb f_tolerance i_sectors st n)
    · exact ih _ (fun k' hk' => hns k' (List.mem_cons_of_mem _ hk')) n hn'

theorem le_foldl_max (l : List ℕ) (a : ℕ) (n : ℕ) (hn : n ∈ l ∨ n ≤ a) :
    n ≤ l.foldl max a := by
  induction l generalizing a with
  | nil => simpa using hn
  | cons x xs ih =>
    rw [List.foldl_cons]
    apply ih
    rcases hn with hn | hn
    · rcases List.mem_cons.mp hn with rfl | hn'
      · exact Or.inr (le_max_right a n)
      · exact Or.inl hn'
    · exact Or.inr (le_trans hn (le_max_left a x))

theorem mem_uniqueSorted_iff (l : List ℕ) (n : ℕ) : n ∈ uniqueSorted l ↔ n ∈ l := by
  unfold uniqueSorted
  constructor
  · intro h
    exact of_decide_eq_true (List.mem_filter.mp h).2
  · intro h
    apply List.mem_filter.mpr
    refine ⟨List.mem_range.mpr ?_, decide_eq_true h⟩
    have := le_foldl_max l 0 n (Or.inl h)
    omega

theorem reextract_get?_stable (times signal : List ℝ) (freq_res : ℝ)
    (i_sectors : List (ℕ × ℕ)) (non_harm : List ℕ) (st : Params) {j : ℕ} {v : ℝ}
    (hj : j ∉ non_harm) (hv : st.2.2.1.get? j = some v) :
    (non_harm.foldl (fixHarmReextract times signal freq_res i_sectors) st).2.2.1.get? j
      = some v := by
  apply foldl_preserves_mem (fun st : Params => st.2.2.1.get? j = some v) _ non_harm st hv
  intro st' i hi hq
  unfold fixHarmReextract
  simp only
  rw [List.get?_set_ne]
  · exact hq
  · intro hij
    exact hj (hij ▸ hi)

theorem pattern_keeps_least_exact {f : List ℝ} {p : ℝ} (hp : p ≠ 0) {m : ℕ} (hm1 : 1 ≤ m)
    (hQ : ∃ i, f.get? i = some ((m : ℝ) / p)) :
    ∃ j, f.get? j = some ((m : ℝ) / p) ∧
      j ∈ (find_harmonics_from_pattern f p).map Prod.fst := by
  refine ⟨Nat.find hQ, Nat.find_spec hQ, ?_⟩
  apply List.mem_map.mpr
  refine ⟨(Nat.find hQ, m), ?_, rfl⟩
  unfold find_harmonics_from_pattern find_harmonics_tolerance
  apply List.mem_filter.mpr
  constructor
  · rw [mem_cands_iff]
    refine ⟨(m : ℝ) / p, Nat.find_spec hQ, ?_, (harmonicNumber_exact hp hm1).symm⟩
    rw [harmonicDist_exact hp hm1]
    norm_num
  · apply decide_eq_true
    intro d hd hd2
    rw [mem_cands_iff] at hd
    obtain ⟨v, hv, _, hn⟩ := hd
    have hgj : f.getD (Nat.find hQ, m).1 0 = (m : ℝ) / p := by
      show (f.get? (Nat.find hQ)).getD 0 = _
      rw [Nat.find_spec hQ]
      rfl
    have hgd : f.getD d.1 0 = v := by
      show (f.get? d.1).getD 0 = v
      rw [hv]
      rfl
    rw [hgj, hgd, harmonicDist_exact hp hm1]
    rcases (abs_nonneg (v - (harmonicNumber p v : ℝ) / p)).lt_or_eq with hpos | hzero
    · left
      unfold harmonicDist
      exact hpos
    · right
      have hveq : v = (m : ℝ) / p := by
        have h0 : |v - (harmonicNumber p v : ℝ) / p| = 0 := hzero.symm
        have := abs_eq_zero.mp h0
        have hnum : harmonicNumber p v = m := by
          have h2 : d.2 = m := hd2
          rw [hn] at h2
          exact h2.symm ▸ rfl
        rw [hnum] at this
        linarith [this]
      refine ⟨?_, Nat.find_min' hQ (by rw [← hveq]; exact hv)⟩
      unfold harmonicDist
      rw [hveq, harmonicNumber_exact hp hm1]
      simp

/-- C2 (amended): after `fix_harmonic_frequency` (1) every index of the
returned `f_n` that the tight pattern matcher classifies as harmonic number
`n` holds a value within the matcher tolerance `1e-9` of `n / p_orb` —
rather than exactly equal to it, since an untouched non-harmonic frequency
within `1e-9` of a fresh harmonic number is classified without being exact —
and (2) the exact value `n / p_orb` is present in the returned `f_n` for
every harmonic number `n` the locking loop processed (their amplitudes and
phases re-derived by single-frequency evaluation). -/
theorem fix_harmonic_lock_tolerance :
    (∀ (times signal : List ℝ) (p_orb : ℝ) (const slope f_n a_n ph_n : List ℝ)
        (i_sectors : List (ℕ × ℕ)) (out : Params),
      fix_harmonic_frequency times signal p_orb const slope f_n a_n ph_n i_sectors
          = some out →
      ∀ c ∈ find_harmonics_from_pattern out.2.2.1 p_orb,
        |out.2.2.1.getD c.1 0 - (c.2 : ℝ) / p_orb| ≤ 1 / 10 ^ 9) ∧
    (∀ (times signal : List ℝ) (p_orb : ℝ) (const slope f_n a_n ph_n : List ℝ)
        (i_sectors : List (ℕ × ℕ)) (out : Params),
      p_orb ≠ 0 →
      fix_harmonic_frequency times signal p_orb const slope f_n a_n ph_n i_sectors
          = some out →
      ∀ c ∈ find_harmonics_tolerance f_n p_orb
          (min (1.5 / np_ptp times / 2) (1 / (2 * p_orb))),
        ((c.2 : ℝ) / p_orb) ∈ out.2.2.1) := by
  constructor
  · intro times signal p_orb const slope f_n a_n ph_n i_sectors out _ c hc
    exact find_harmonics_tolerance_sound _ _ _ _ hc
  · intro times signal p_orb const slope f_n a_n ph_n i_sectors out hp h c hc
    simp only [fix_harmonic_frequency] at h
    rw [if_neg (List.ne_nil_of_mem hc)] at h
    obtain rfl := Option.some.inj h
    have hns : ∀ k ∈ uniqueSorted ((find_harmonics_tolerance f_n p_orb
        (min (1.5 / np_ptp times / 2) (1 / (2 * p_orb)))).map Prod.snd), 1 ≤ k := by
      intro k hk
      have hk' := (mem_uniqueSorted_iff _ _).mp hk
      obtain ⟨c', hc', rfl⟩ := List.mem_map.mp hk'
      exact find_harmonics_pos hc'
    have hcn : c.2 ∈ uniqueSorted ((find_harmonics_tolerance f_n p_orb
        (min (1.5 / np_ptp times / 2) (1 / (2 * p_orb)))).map Prod.snd) :=
      (mem_uniqueSorted_iff _ _).mpr (List.mem_map.mpr ⟨c, hc, rfl⟩)
    have hst1 := foldl_fixHarmStep_exact times signal
      (min (1.5 / np_ptp times / 2) (1 / (2 * p_orb))) i_sectors _
      (const, slope, f_n, a_n, ph_n) hp hns c.2 hcn
    obtain ⟨i0, hi0⟩ := List.mem_iff_get?.mp hst1
    have hleast := pattern_keeps_least_exact hp (find_harmonics_pos hc) ⟨i0, hi0⟩
    obtain ⟨j, hjval, hjmem⟩ := hleast
    have hjnot : j ∉ (List.range ((uniqueSorted ((find_harmonics_tolerance f_n p_orb
        (min (1.5 / np_ptp times / 2) (1 / (2 * p_orb)))).map Prod.snd)).foldl
          (fixHarmStep times signal p_orb
            (min (1.5 / np_ptp times / 2) (1 / (2 * p_orb))) i_sectors)
          (const, slope, f_n, a_n, ph_n)).2.2.1.length).filter
        (fun i => decide (i ∉ (find_harmonics_from_pattern
          ((uniqueSorted ((find_harmonics_tolerance f_n p_orb
            (min (1.5 / np_ptp times / 2) (1 / (2 * p_orb)))).map Prod.snd)).foldl
              (fixHarmStep times signal p_orb
                (min (1.5 / np_ptp times / 2) (1 / (2 * p_orb))) i_sectors)
              (const, slope, f_n, a_n, ph_n)).2.2.1 p_orb).map Prod.fst)) := by
      intro hjin
      have := of_decide_eq_true (List.mem_filter.mp hjin).2
      exact this hjmem
    have hfinal := reextract_get?_stable times signal (1.5 / np_ptp times) i_sectors _ _
      hjnot hjval
    exact List.get?_mem hfinal

/-! ## Zero-signal periodogram evaluations -/

theorem scargleRot_zero (sd cd : ℝ) : ∀ l : List (ℝ × ℝ), scargleRot sd cd l 0 0 = l := by
  intro l
  induction l with
  | nil => rfl
  | cons p rest ih => simp [scargleRot, ih]

theorem scargle_fold_fst_zero (f0 df : ℝ) (times signal : List ℝ)
    (hs : ∀ y ∈ signal, y = 0) (init1 init2 : List (ℝ × ℝ)) :
    ((times.zip signal).foldl (fun a ty => scarglePoint f0 df ty.1 ty.2 a)
      (init1, init2)).1 = init1 := by
  apply foldl_preserves_mem (fun a : List (ℝ × ℝ) × List (ℝ × ℝ) => a.1 = init1) _ _ _ rfl
  intro a ty hty ha
  have hy : ty.2 = 0 := hs _ (List.of_mem_zip hty).2
  simp only [scarglePoint]
  rw [hy, mul_zero, mul_zero, scargleRot_zero, ha]

theorem scargle_zero_signal_ampl (times signal : List ℝ) (f0 fn df : ℝ)
    (hs : ∀ y ∈ signal, y = 0) : ∀ x ∈ (scargle times signal f0 fn df).2, x = 0 := by
  intro x hx
  simp only [scargle] at hx
  rw [scargle_fold_fst_zero _ _ _ _ hs] at hx
  simp only [List.mem_map] at hx
  obtain ⟨v, hv, hxv⟩ := hx
  obtain ⟨q, hq, hvq⟩ := hv
  have hq1 : q.1 = ((0 : ℝ), (0 : ℝ)) := List.eq_of_mem_replicate (List.of_mem_zip hq).1
  rw [← hxv, ← hvq, hq1]
  norm_num

theorem np_argmax_all_zero {l : List ℝ} (h : ∀ x ∈ l, x = 0) : np_argmax l = 0 := by
  cases l with
  | nil => rfl
  | cons x xs =>
    simp only [np_argmax]
    have hx : x = 0 := h x (by simp)
    have hgd : xs.getD (np_argmax xs) x = 0 := by
      by_cases hlen : np_argmax xs < xs.length
      · rw [List.getD_eq_getElem _ _ hlen]
        exact h _ (List.mem_cons_of_mem _ (List.getElem_mem hlen))
      · rw [List.getD_eq_default _ _ (le_of_not_lt hlen)]
        exact hx
    rw [hgd, hx, if_neg (lt_irrefl 0)]

theorem getD_all_zero {l : List ℝ} (h : ∀ x ∈ l, x = 0) (k : ℕ) : l.getD k 0 = 0 := by
  by_cases hk : k < l.length
  · rw [List.getD_eq_getElem _ _ hk]
    exact h _ (List.getElem_mem hk)
  · exact List.getD_eq_default _ _ (le_of_not_lt hk)

theorem intTrunc_nonneg (x : ℝ) (hx : 0 ≤ x) : 0 ≤ intTrunc x := by
  unfold intTrunc
  rw [if_pos hx]
  exact Int.floor_nonneg.mpr hx

theorem range_map_getD_zero (g : ℕ → ℝ) (N : ℕ) (hN : 0 < N) :
    ((List.range N).map g).getD 0 0 = g 0 := by
  rw [List.getD_eq_getElem _ _ (by simpa using hN)]
  simp

theorem scargle_fst_getD (times signal : List ℝ) (f0 fn df : ℝ)
    (h0 : 0 ≤ ((if fn = 0 then 1 / (2 * minDiff times) else fn) - max f0 (0.01 / np_ptp times)) /
        (if df = 0 then 0.1 / np_ptp times else df) + 0.001) :
    (scargle times signal f0 fn df).1.getD 0 0 = max f0 (0.01 / np_ptp times) := by
  simp only [scargle]
  rw [range_map_getD_zero]
  · norm_num
  · have h1 : (0 : ℤ) ≤ intTrunc (((if fn = 0 then 1 / (2 * minDiff times) else fn) -
        max f0 (0.01 / np_ptp times)) / (if df = 0 then 0.1 / np_ptp times else df) + 0.001) :=
      intTrunc_nonneg _ h0
    omega

/-! ## A concrete two-point run of `extract_all` with an exactly-linear
signal: the first extracted candidate has zero amplitude and is rejected,
so the loop returns the trend-only model. -/

theorem ptp_01 : np_ptp [0, 1] = 1 := by
  norm_num [np_ptp, listMax, listMin, max_def, min_def]

theorem minDiff_01 : minDiff [0, 1] = 1 := by
  norm_num [minDiff, listSub, listMin, min_def]

theorem zero_mem_two (y : ℝ) (hy : y ∈ ([0, 0] : List ℝ)) : y = 0 := by
  rcases List.mem_cons.mp hy with rfl | h
  · rfl
  · simpa using h

theorem scargle1_getD : (scargle [0, 1] [0, 0] 0 0 (0.1 / np_ptp [0, 1])).1.getD 0 0
    = 1 / 100 := by
  rw [scargle_fst_getD]
  · rw [ptp_01]
    norm_num [max_def]
  · rw [ptp_01, minDiff_01]
    norm_num [max_def]

theorem refinePass_two_point :
    refinePass [0, 1] [0, 0] (1 / 100) (0.1 / np_ptp [0, 1]) (0.1 / np_ptp [0, 1] / 100)
      = (1 / 100, 0) := by
  simp only [refinePass]
  rw [np_argmax_all_zero (scargle_zero_signal_ampl [0, 1] [0, 0]
    (max (1 / 100 - 0.1 / np_ptp [0, 1]) (0.01 / np_ptp [0, 1])) (1 / 100 + 0.1 / np_ptp [0, 1])
    (0.1 / np_ptp [0, 1] / 100) zero_mem_two)]
  rw [getD_all_zero (scargle_zero_signal_ampl [0, 1] [0, 0]
    (max (1 / 100 - 0.1 / np_ptp [0, 1]) (0.01 / np_ptp [0, 1])) (1 / 100 + 0.1 / np_ptp [0, 1])
    (0.1 / np_ptp [0, 1] / 100) zero_mem_two)]
  rw [scargle_fst_getD]
  · rw [ptp_01]
    norm_num [max_def]
  · rw [ptp_01, minDiff_01]
    norm_num [max_def]

theorem extract_single_two_point :
    (extract_single [0, 1] [0, 0] 0 0).1 = 1 / 100 ∧
    (extract_single [0, 1] [0, 0] 0 0).2.1 = 0 := by
  simp only [extract_single]
  rw [np_argmax_all_zero (scargle_zero_signal_ampl [0, 1] [0, 0] 0 0 (0.1 / np_ptp [0, 1])
    zero_mem_two), scargle1_getD, refinePass_two_point]
  exact ⟨rfl, rfl⟩

theorem lp_two_point : linear_pars [0, 1] [0, 1] [(0, 2)] = ([0], [1]) := by
  simp only [linear_pars, seg, np_mean]
  norm_num

theorem lc_two_point : linear_curve [0, 1] [0] [1] [(0, 2)] = [0, 1] := by
  simp only [linear_curve]
  norm_num [List.mapIdx_cons, List.mapIdx_nil]

theorem calc_bic_zero_two (k : ℕ) : calc_bic [0, 0] k = 2 + (k : ℝ) * Real.log 2 := by
  simp only [calc_bic]
  norm_num [Real.log_zero]

theorem refit_two_point (x : ℝ) :
    refitTrendStep [0, 1] [0, 1] [(0, 2)] [1 / 100] [0] [x] = (([0], [1]), [0, 0]) := by
  simp only [refitTrendStep]
  rw [sum_sines_zero_amps [0, 1] [1 / 100] [0] [x] (by intro a ha; simpa using ha)]
  have h1 : listSub [0, 1] (([0, 1] : List ℝ).map (fun _ => 0)) = [0, 1] := by
    norm_num [listSub]
  rw [h1, lp_two_point]
  have h2 : listAdd (([0, 1] : List ℝ).map (fun _ => 0))
      (linear_curve [0, 1] ([0], [1]).1 ([0], [1]).2 [(0, 2)]) = [0, 1] := by
    show listAdd _ (linear_curve [0, 1] [0] [1] [(0, 2)]) = _
    rw [lc_two_point]
    norm_num [listAdd]
  rw [h2]
  norm_num [listSub]

theorem extractAllInit_two_point :
    extractAllInit [0, 1] [0, 1] [1, 1] [(0, 2)] =
      { const := [0], slope := [1], fN := [], aN := [], phN := [], fT := [], aT := [],
        phT := [], resid := [0, 0], bicPrev := none, bic := 2 + 2 * Real.log 2,
        iter := 0 } := by
  simp only [extractAllInit]
  rw [lp_two_point]
  have h1 : linear_curve [0, 1] ([0], [1]).1 ([0], [1]).2 [(0, 2)] = [0, 1] := lc_two_point
  rw [h1]
  have h2 : listSub [0, 1] [0, 1] = ([0, 0] : List ℝ) := by norm_num [listSub]
  rw [h2]
  have h3 : listDiv [0, 0] [1, 1] = ([0, 0] : List ℝ) := by norm_num [listDiv]
  rw [h3]
  have h4 : calc_bic [0, 0] (2 * ([((0 : ℕ), (2 : ℕ))] : List (ℕ × ℕ)).length)
      = 2 + 2 * Real.log 2 := by
    rw [show 2 * ([((0 : ℕ), (2 : ℕ))] : List (ℕ × ℕ)).length = 2 by simp, calc_bic_zero_two]
    norm_num
  rw [h4]

theorem extractAllLoop_succ (times signal signal_err : List ℝ) (i_sectors : List (ℕ × ℕ))
    (rfuel fuel : ℕ) (st : EAState) :
    extractAllLoop times signal signal_err i_sectors rfuel (fuel + 1) st =
      if extractAllCond st.bicPrev st.bic then
        (extractAllBody times signal signal_err i_sectors rfuel (extractAllCommit st)).bind
          (extractAllLoop times signal signal_err i_sectors rfuel fuel)
      else some (extractAllFinish times signal i_sectors st) := rfl

theorem extractAllBody_two_point :
    extractAllBody [0, 1] [0, 1] [1, 1] [(0, 2)] 1
      { const := [0], slope := [1], fN := [], aN := [], phN := [], fT := [], aT := [],
        phT := [], resid := [0, 0], bicPrev := some (2 + 2 * Real.log 2),
        bic := 2 + 2 * Real.log 2, iter := 0 } =
      some
        { const := [0], slope := [1], fN := [], aN := [], phN := [],
          fT := [1 / 100], aT := [0], phT := [(extract_single [0, 1] [0, 0] 0 0).2.2],
          resid := [0, 0], bicPrev := some (2 + 2 * Real.log 2),
          bic := 2 + 5 * Real.log 2, iter := 1 } := by
  simp only [extractAllBody]
  rw [if_neg (by simp)]
  simp only [List.nil_append]
  rw [extract_single_two_point.1, extract_single_two_point.2]
  simp only [Option.map_some']
  rw [refit_two_point]
  norm_num [listDiv, calc_bic_zero_two]

theorem extract_all_two_point :
    extract_all [0, 1] [0, 1] [1, 1] [(0, 2)] 1 2 = some ([0], [1], [], [], []) := by
  have hmap : ([0, 1] : List ℝ).map (fun t => t - ([0, 1] : List ℝ).headD 0) = [0, 1] := by
    norm_num
  simp only [extract_all]
  rw [hmap, extractAllInit_two_point]
  show extractAllLoop [0, 1] [0, 1] [1, 1] [(0, 2)] 1 (1 + 1) _ = _
  rw [extractAllLoop_succ]
  rw [if_pos (by simp [extractAllCond])]
  have hcommit :
      extractAllCommit
          { const := [0], slope := [1], fN := [], aN := [], phN := [], fT := [], aT := [],
            phT := [], resid := [0, 0], bicPrev := none, bic := 2 + 2 * Real.log 2,
            iter := 0 } =
        { const := [0], slope := [1], fN := [], aN := [], phN := [], fT := [], aT := [],
          phT := [], resid := [0, 0], bicPrev := some (2 + 2 * Real.log 2),
          bic := 2 + 2 * Real.log 2, iter := 0 } := rfl
  rw [hcommit]
  rw [extractAllBody_two_point]
  rw [Option.some_bind]
  show extractAllLoop [0, 1] [0, 1] [1, 1] [(0, 2)] 1 (0 + 1) _ = _
  rw [extractAllLoop_succ]
  rw [if_neg (by
    simp only [extractAllCond]
    intro hgt
    have hl2 : 0 < Real.log 2 := Real.log_pos one_lt_two
    linarith)]
  simp only [extractAllFinish]
  rw [sum_sines_zero_amps [0, 1] [] [] [] (by intro a ha; simp at ha)]
  have h1 : listSub [0, 1] (([0, 1] : List ℝ).map (fun _ => 0)) = [0, 1] := by
    norm_num [listSub]
  rw [h1, lp_two_point]

/-! ## The commit/stop structure of `extract_all` (C1) and the BIC
invariant of its accepted states (C6). -/

theorem extractAllLoop_decompose (times signal signal_err : List ℝ)
    (i_sectors : List (ℕ × ℕ)) (rfuel : ℕ) :
    ∀ (fuel : ℕ) (st : EAState) (out : Params),
      extractAllLoop times signal signal_err i_sectors rfuel fuel st = some out →
      ∃ stf : EAState,
        EASteps times signal signal_err i_sectors rfuel st stf ∧
        ¬ extractAllCond stf.bicPrev stf.bic ∧
        out = extractAllFinish times signal i_sectors stf := by
  intro fuel
  induction fuel with
  | zero => intro st out h; simp [extractAllLoop] at h
  | succ fuel ih =>
    intro st out h
    rw [extractAllLoop_succ] at h
    by_cases hc : extractAllCond st.bicPrev st.bic
    · rw [if_pos hc] at h
      obtain ⟨st', hbody, hloop⟩ := Option.bind_eq_some.mp h
      obtain ⟨stf, hsteps, hcond, hout⟩ := ih st' out hloop
      exact ⟨stf, EASteps.step st st' stf hc hbody hsteps, hcond, hout⟩
    · rw [if_neg hc] at h
      exact ⟨st, EASteps.refl st, hc, (Option.some.inj h).symm⟩

/-- C1: for every input, the prewhitening loop `extract_all` reaches its
returned value through a chain of commits (`EASteps`), each guarded by the
`bic_prev - bic > 2` test, followed by one failing test; at the failing
test it discards the last candidate (`fT`/`aT`/`phT`) and returns the
previously accepted `f_n`, `a_n`, `ph_n` (with the trend re-fitted to
them), so every accepted set improved the BIC by more than 2 over its
predecessor and the returned set is one iteration behind the rejected
candidate. -/
theorem extract_all_commit_guard :
    ∀ (times signal signal_err : List ℝ) (i_sectors : List (ℕ × ℕ)) (rfuel fuel : ℕ)
      (out : Params),
      extract_all times signal signal_err i_sectors rfuel fuel = some out →
      ∃ stf : EAState,
        EASteps (times.map (fun t => t - times.headD 0)) signal signal_err i_sectors rfuel
          (extractAllInit (times.map (fun t => t - times.headD 0)) signal signal_err i_sectors)
          stf ∧
        ¬ extractAllCond stf.bicPrev stf.bic ∧
        out = extractAllFinish (times.map (fun t => t - times.headD 0)) signal i_sectors stf ∧
        out.2.2.1 = stf.fN ∧ out.2.2.2.1 = stf.aN ∧ out.2.2.2.2 = stf.phN := by
  intro times signal signal_err i_sectors rfuel fuel out h
  simp only [extract_all] at h
  obtain ⟨stf, hsteps, hcond, hout⟩ :=
    extractAllLoop_decompose _ _ _ _ _ fuel _ out h
  exact ⟨stf, hsteps, hcond, hout, by rw [hout]; rfl, by rw [hout]; rfl, by rw [hout]; rfl⟩

theorem extract_all_commit_guard_witness :
    extract_all [0, 1] [0, 1] [1, 1] [(0, 2)] 1 2 = some ([0], [1], [], [], []) ∧
    (∃ stf : EAState,
      EASteps (([0, 1] : List ℝ).map (fun t => t - ([0, 1] : List ℝ).headD 0)) [0, 1] [1, 1]
        [(0, 2)] 1
        (extractAllInit (([0, 1] : List ℝ).map (fun t => t - ([0, 1] : List ℝ).headD 0))
          [0, 1] [1, 1] [(0, 2)]) stf ∧
      ¬ extractAllCond stf.bicPrev stf.bic ∧
      (([0], [1], [], [], []) : Params) = extractAllFinish
        (([0, 1] : List ℝ).map (fun t => t - ([0, 1] : List ℝ).headD 0)) [0, 1] [(0, 2)] stf ∧
      (([0], [1], [], [], []) : Params).2.2.1 = stf.fN ∧
      (([0], [1], [], [], []) : Params).2.2.2.1 = stf.aN ∧
      (([0], [1], [], [], []) : Params).2.2.2.2 = stf.phN) :=
  ⟨extract_all_two_point,
   extract_all_commit_guard [0, 1] [0, 1] [1, 1] [(0, 2)] 1 2 ([0], [1], [], [], [])
     extract_all_two_point⟩

theorem zipWith_right_zero (f : ℝ → ℝ → ℝ) (hf : ∀ x, f x 0 = x) :
    ∀ (s zs : List ℝ), (∀ z ∈ zs, z = 0) → s.length ≤ zs.length →
      List.zipWith f s zs = s := by
  intro s
  induction s with
  | nil => intro zs _ _; simp
  | cons a as ih =>
    intro zs hz hlen
    cases zs with
    | nil => simp at hlen
    | cons b bs =>
      simp only [List.zipWith_cons_cons]
      rw [hz b (by simp), hf,
        ih bs (fun z hzz => hz z (by simp [hzz])) (by simpa using hlen)]

theorem zipWith_left_zero (f : ℝ → ℝ → ℝ) (hf : ∀ x, f 0 x = x) :
    ∀ (zs s : List ℝ), (∀ z ∈ zs, z = 0) → s.length ≤ zs.length →
      List.zipWith f zs s = s := by
  intro zs
  induction zs with
  | nil => intro s _ hlen; rw [List.length_nil, Nat.le_zero, List.length_eq_zero] at hlen
           rw [hlen]; rfl
  | cons b bs ih =>
    intro s hz hlen
    cases s with
    | nil => rfl
    | cons a as =>
      simp only [List.zipWith_cons_cons]
      rw [hz b (by simp), hf,
        ih as (fun z hzz => hz z (by simp [hzz])) (by simpa using hlen)]

theorem map_zero_mem (times : List ℝ) : ∀ z ∈ times.map (fun _ => (0 : ℝ)), z = 0 := by
  intro z hz
  obtain ⟨t, _, hzt⟩ := List.mem_map.mp hz
  exact hzt.symm

theorem linear_curve_length (times const slope : List ℝ) (i_sectors : List (ℕ × ℕ)) :
    (linear_curve times const slope i_sectors).length = times.length := by
  unfold linear_curve
  apply foldl_preserves (fun c : List ℝ => c.length = times.length)
  · simp
  · intro c x hc
    simpa using hc

theorem refitTrendStep_empty (times signal : List ℝ) (i_sectors : List (ℕ × ℕ))
    (hlen : signal.length = times.length) :
    refitTrendStep times signal i_sectors [] [] [] =
      (((linear_pars times signal i_sectors).1, (linear_pars times signal i_sectors).2),
        listSub signal (linear_curve times (linear_pars times signal i_sectors).1
          (linear_pars times signal i_sectors).2 i_sectors)) := by
  simp only [refitTrendStep]
  rw [sum_sines_zero_amps times [] [] [] (by intro a ha; simp at ha)]
  have h1 : listSub signal (times.map fun _ => 0) = signal :=
    zipWith_right_zero _ (by intro x; ring) signal _ (map_zero_mem times)
      (by simp [hlen])
  rw [h1]
  have h2 : listAdd (times.map fun _ => 0)
      (linear_curve times (linear_pars times signal i_sectors).1
        (linear_pars times signal i_sectors).2 i_sectors) =
      linear_curve times (linear_pars times signal i_sectors).1
        (linear_pars times signal i_sectors).2 i_sectors :=
    zipWith_left_zero _ (by intro x; ring) _ _ (map_zero_mem times)
      (by simp [linear_curve_length])
  rw [h2]

theorem extractAllInit_bic (times signal signal_err : List ℝ) (i_sectors : List (ℕ × ℕ))
    (hlen : signal.length = times.length) :
    (extractAllInit times signal signal_err i_sectors).bic
      = refitBIC times signal signal_err i_sectors [] [] [] := by
  simp only [extractAllInit, refitBIC]
  rw [refitTrendStep_empty times signal i_sectors hlen]
  norm_num

theorem extractAllBody_fields {times signal signal_err : List ℝ} {i_sectors : List (ℕ × ℕ)}
    {rfuel : ℕ} {st st' : EAState}
    (h : extractAllBody times signal signal_err i_sectors rfuel st = some st') :
    st'.bic = refitBIC times signal signal_err i_sectors st'.fT st'.aT st'.phT ∧
    st'.fN = st.fN ∧ st'.aN = st.aN ∧ st'.phN = st.phN ∧ st'.bicPrev = st.bicPrev := by
  simp only [extractAllBody] at h
  rw [Option.map_eq_some'] at h
  obtain ⟨p, hp, rfl⟩ := h
  exact ⟨rfl, rfl, rfl, rfl, rfl⟩

theorem extractAllLoop_bic_le (times signal signal_err : List ℝ) (i_sectors : List (ℕ × ℕ))
    (rfuel : ℕ) :
    ∀ (fuel : ℕ) (st : EAState) (out : Params),
      st.bic = refitBIC times signal signal_err i_sectors st.fT st.aT st.phT →
      (st.bicPrev = none → st.fN = [] ∧ st.aN = [] ∧ st.phN = [] ∧
        st.bic ≤ refitBIC times signal signal_err i_sectors [] [] []) →
      (∀ b, st.bicPrev = some b →
        b = refitBIC times signal signal_err i_sectors st.fN st.aN st.phN ∧
        b ≤ refitBIC times signal signal_err i_sectors [] [] []) →
      extractAllLoop times signal signal_err i_sectors rfuel fuel st = some out →
      refitBIC times signal signal_err i_sectors out.2.2.1 out.2.2.2.1 out.2.2.2.2
        ≤ refitBIC times signal signal_err i_sectors [] [] [] := by
  intro fuel
  induction fuel with
  | zero => intro st out _ _ _ h; simp [extractAllLoop] at h
  | succ fuel ih =>
    intro st out h1 h2 h3 h
    rw [extractAllLoop_succ] at h
    by_cases hc : extractAllCond st.bicPrev st.bic
    · rw [if_pos hc] at h
      obtain ⟨st', hbody, hloop⟩ := Option.bind_eq_some.mp h
      obtain ⟨hb1, hb2, hb3, hb4, hb5⟩ := extractAllBody_fields hbody
      have hbic_le : st.bic ≤ refitBIC times signal signal_err i_sectors [] [] [] := by
        rcases hbp : st.bicPrev with _ | b0
        · exact (h2 hbp).2.2.2
        · have hle := (h3 b0 hbp).2
          rw [hbp] at hc
          simp only [extractAllCond] at hc
          linarith
      apply ih st' out hb1 _ _ hloop
      · intro hnone
        rw [hb5] at hnone
        simp [extractAllCommit] at hnone
      · intro b hb
        rw [hb5] at hb
        have hcommit : (extractAllCommit st).bicPrev = some st.bic := rfl
        rw [hcommit] at hb
        obtain rfl := Option.some.inj hb.symm
        constructor
        · rw [hb2, hb3, hb4]
          have e1 : (extractAllCommit st).fN = st.fT := rfl
          have e2 : (extractAllCommit st).aN = st.aT := rfl
          have e3 : (extractAllCommit st).phN = st.phT := rfl
          rw [e1, e2, e3]
          exact h1
        · exact hbic_le
    · rw [if_neg hc] at h
      obtain rfl := (Option.some.inj h).symm
      show refitBIC times signal signal_err i_sectors st.fN st.aN st.phN ≤ _
      rcases hbp : st.bicPrev with _ | b0
      · obtain ⟨hfn, han, hph, _⟩ := h2 hbp
        rw [hfn, han, hph]
      · have hinv := h3 b0 hbp
        rw [← hinv.1]
        exact hinv.2

/-- C6 (amended): recomputing the BIC of the model `extract_all` returns
(with the trend refitted, 2 parameters per sector and 3 per sinusoid) is
less than OR EQUAL to the trend-only model's BIC computed the same way —
not strictly less: when the very first candidate frequency fails the
`bic_prev - bic > 2` test, the returned `f_n` is empty and the returned
model IS the trend-only model, so equality holds. -/
theorem extract_all_bic_le :
    ∀ (times signal signal_err : List ℝ) (i_sectors : List (ℕ × ℕ)) (rfuel fuel : ℕ)
      (out : Params),
      signal.length = times.length →
      extract_all times signal signal_err i_sectors rfuel fuel = some out →
      refitBIC (times.map (fun t => t - times.headD 0)) signal signal_err i_sectors
          out.2.2.1 out.2.2.2.1 out.2.2.2.2
        ≤ refitBIC (times.map (fun t => t - times.headD 0)) signal signal_err i_sectors
          [] [] [] := by
  intro times signal signal_err i_sectors rfuel fuel out hlen h
  simp only [extract_all] at h
  have hlen' : signal.length = (times.map (fun t => t - times.headD 0)).length := by
    simpa using hlen
  refine extractAllLoop_bic_le _ _ _ _ _ fuel _ out ?_ ?_ ?_ h
  · exact extractAllInit_bic _ signal signal_err i_sectors hlen'
  · intro _
    exact ⟨rfl, rfl, rfl, le_of_eq (extractAllInit_bic _ _ _ _ hlen')⟩
  · intro b hb
    simp [extractAllInit] at hb

theorem extract_all_bic_le_witness :
    extract_all [0, 1] [0, 1] [1, 1] [(0, 2)] 1 2 = some ([0], [1], [], [], []) ∧
    refitBIC (([0, 1] : List ℝ).map (fun t => t - ([0, 1] : List ℝ).headD 0)) [0, 1] [1, 1]
        [(0, 2)] (([0], [1], [], [], []) : Params).2.2.1
        (([0], [1], [], [], []) : Params).2.2.2.1
        (([0], [1], [], [], []) : Params).2.2.2.2
      ≤ refitBIC (([0, 1] : List ℝ).map (fun t => t - ([0, 1] : List ℝ).headD 0)) [0, 1]
        [1, 1] [(0, 2)] [] [] [] :=
  ⟨extract_all_two_point,
   extract_all_bic_le [0, 1] [0, 1] [1, 1] [(0, 2)] 1 2 ([0], [1], [], [], [])
     (by norm_num) extract_all_two_point⟩

/-- C6 counterexample to strictness: on `times = [0, 1]`,
`signal = [0, 1]` (an exactly linear signal), `signal_err = [1, 1]`, one
sector, the first candidate frequency has zero amplitude, its BIC gain
`-3 ln 2` fails the `> 2` test, and `extract_all` returns the empty
sinusoid set: the returned model is the trend-only model itself, so its
recomputed BIC is NOT strictly lower than the trend-only BIC. -/
theorem extract_all_bic_not_strict :
    extract_all [0, 1] [0, 1] [1, 1] [(0, 2)] 1 2 = some ([0], [1], [], [], []) ∧
    ¬ (refitBIC (([0, 1] : List ℝ).map (fun t => t - ([0, 1] : List ℝ).headD 0)) [0, 1]
        [1, 1] [(0, 2)] (([0], [1], [], [], []) : Params).2.2.1
        (([0], [1], [], [], []) : Params).2.2.2.1
        (([0], [1], [], [], []) : Params).2.2.2.2
      < refitBIC (([0, 1] : List ℝ).map (fun t => t - ([0, 1] : List ℝ).headD 0)) [0, 1]
        [1, 1] [(0, 2)] [] [] []) := by
  refine ⟨extract_all_two_point, ?_⟩
  dsimp only
  exact lt_irrefl _

end

end StarShadow
